import Mathlib

/-!
# Verification of the contour-integration Kepler solver

This file embeds `compute_contour` from `keplers_goat_herd.py` (the contour
integration method of Philcox et al. (2021) for Kepler's equation
`E - e sin E = ℓ`) as a shallow embedding over exact real arithmetic, and
proves the specification claims about it.

Arrays (`dask.array`) are embedded as `List ℝ`; elementwise/broadcast array
operations become `List.map` / `List.zipWith` over those lists, with the
column-against-row broadcasts of the source producing `List (List ℝ)`
(outer index `j`, inner index the position in the `ℓ` array).  `raise
ValueError` becomes returning `Except.error` with the source's message.
Machine floating point is modelled by exact real arithmetic; division is
Lean's total real division.
-/

set_option maxRecDepth 20000

namespace KeplerGoat

open Real

/-- `da.max` of a mean-anomaly array (the source applies it only to nonempty
arrays; on `[]` the value is irrelevant to every theorem below). -/
noncomputable def listMax : List ℝ → ℝ
  | [] => 0
  | x :: xs => xs.foldl max x

/-- `da.min` of a mean-anomaly array (same remark as for `listMax`). -/
noncomputable def listMin : List ℝ → ℝ
  | [] => 0
  | x :: xs => xs.foldl min x

/-- Source lines 52–53: `center = ell_array - eccentricity/2.` followed by
`center = da.where(ell_array < np.pi, center + eccentricity, center)`,
read off at one element `x` of `ell_array`. -/
noncomputable def contourCenter (e x : ℝ) : ℝ :=
  if x < Real.pi then x - e / 2 + e else x - e / 2

/-- Source line 54: `sinC = da.sin(center)` at one element. -/
noncomputable def sinC (e x : ℝ) : ℝ := Real.sin (contourCenter e x)

/-- Source line 55: `cosC = da.cos(center)` at one element. -/
noncomputable def cosC (e x : ℝ) : ℝ := Real.cos (contourCenter e x)

/-- Source line 30: `N_fft = (N_it-1)*2`, as the real number it is used as. -/
noncomputable def NfftR (Nit : ℤ) : ℝ := ((Nit - 1) * 2 : ℤ)

/-- Source lines 64–70 (the `j = 0` edge): the real part of `f(z)` at the
right edge `z = center + radius`, at one element `x` of `ell_array`:
`fxR = zR - (sinC*ecosRadius + cosC*esinRadius) - ell_array`. -/
noncomputable def keplerFxR0 (e x : ℝ) : ℝ :=
  contourCenter e x + e / 2
    - (sinC e x * (e * Real.cos (e / 2)) + cosC e x * (e * Real.sin (e / 2))) - x

/-- Source lines 101–107 (the last edge): the real part of `f(z)` at the left
edge `z = center - radius`, at one element `x`. -/
noncomputable def keplerFxRL (e x : ℝ) : ℝ :=
  contourCenter e x - e / 2
    - (sinC e x * (e * Real.cos (e / 2)) - cosC e x * (e * Real.sin (e / 2))) - x

/-- Source lines 76–96, one interior sample `j` (the source's
`j_arr = da.arange(N_points)` entry `j`, sampling angle
`freq = 2π(j+1)/N_fft`) at one element `x` of `ell_array`.  Returns the pair
of contributions `(to ft_gx2, to ft_gx1)`. -/
noncomputable def keplerT (e : ℝ) (Nit : ℤ) (x : ℝ) (j : ℕ) : ℝ × ℝ :=
  let radius := e / 2
  let freq := 2 * Real.pi * ((j : ℝ) + 1) / NfftR Nit
  let exp2R := Real.cos freq
  let exp2I := Real.sin freq
  let ecosR := e * Real.cos (radius * exp2R)
  let esinR := e * Real.sin (radius * exp2R)
  let exp4R := exp2R * exp2R - exp2I * exp2I
  let exp4I := 2 * exp2R * exp2I
  let coshI := Real.cosh (radius * exp2I)
  let sinhI := Real.sinh (radius * exp2I)
  let zR := contourCenter e x + radius * exp2R
  let zI := radius * exp2I
  let tmpsin := sinC e x * ecosR + cosC e x * esinR
  let tmpcos := cosC e x * ecosR - sinC e x * esinR
  let fxR := zR - tmpsin * coshI - x
  let fxI := zI - tmpcos * sinhI
  let ftmp := fxR * fxR + fxI * fxI
  let fxR2 := fxR / ftmp
  let fxI2 := fxI / ftmp
  (exp4R * fxR2 + exp4I * fxI2, exp2R * fxR2 + exp2I * fxI2)

/-- The accumulator `ft_gx2` of the source (lines 73, 95, 110) at one element:
right-edge term, then the `N_points` interior contributions, then the
left-edge term. -/
noncomputable def keplerGx2 (e : ℝ) (Nit : ℤ) (x : ℝ) : ℝ :=
  0.5 / keplerFxR0 e x
      + (List.range (Nit - 2).toNat).foldl (fun a j => a + (keplerT e Nit x j).1) 0
    + 0.5 / keplerFxRL e x

/-- The accumulator `ft_gx1` of the source (lines 74, 96, 111) at one element. -/
noncomputable def keplerGx1 (e : ℝ) (Nit : ℤ) (x : ℝ) : ℝ :=
  0.5 / keplerFxR0 e x
      + (List.range (Nit - 2).toNat).foldl (fun a j => a + (keplerT e Nit x j).2) 0
    + -0.5 / keplerFxRL e x

/-- Source line 114, `output += radius*ft_gx2/ft_gx1`, at one element: the
eccentric anomaly produced for mean anomaly `x`. -/
noncomputable def keplerElem (e : ℝ) (Nit : ℤ) (x : ℝ) : ℝ :=
  contourCenter e x + e / 2 * keplerGx2 e Nit x / keplerGx1 e Nit x

/-- The numeric phase of `compute_contour` (source lines 28–116), at array
level, mirroring the source statement by statement with dask broadcasting
embedded as `map`/`zipWith` over `List ℝ` (column-against-row broadcasts
become `List (List ℝ)`, outer index `j`). -/
noncomputable def keplerNumeric (ell_array : List ℝ) (eccentricity : ℝ) (N_it : ℤ) :
    List ℝ :=
    -- Define sampling points
    let N_points : ℕ := (N_it - 2).toNat
    let N_fft : ℝ := ((N_it - 1) * 2 : ℤ)
    -- Define contour radius
    let radius := eccentricity / 2
    -- Generate e^{ikx} sampling points, real and imaginary parts
    let j_arr : List ℝ := List.map (fun j : ℕ => (j : ℝ)) (List.range N_points)
    let freq := j_arr.map (fun j => 2 * Real.pi * (j + 1) / N_fft)
    let exp2R := freq.map Real.cos
    let exp2I := freq.map Real.sin
    let ecosR := exp2R.map (fun c => eccentricity * Real.cos (radius * c))
    let esinR := exp2R.map (fun c => eccentricity * Real.sin (radius * c))
    let exp4R := List.zipWith (fun c s => c * c - s * s) exp2R exp2I
    let exp4I := List.zipWith (fun c s => 2 * c * s) exp2R exp2I
    let coshI := exp2I.map (fun s => Real.cosh (radius * s))
    let sinhI := exp2I.map (fun s => Real.sinh (radius * s))
    -- Precompute e sin(e/2) and e cos(e/2)
    let esinRadius := eccentricity * Real.sin radius
    let ecosRadius := eccentricity * Real.cos radius
    -- Contour center for each ell, and sin(center), cos(center)
    let center0 := ell_array.map (fun x => x - eccentricity / 2)
    let center := List.zipWith
      (fun x c => if x < Real.pi then c + eccentricity else c) ell_array center0
    let sinCa := center.map Real.sin
    let cosCa := center.map Real.cos
    -- j = 0 piece (z real, at center + radius)
    let zR0 := center.map (fun c => c + radius)
    let tmpsin0 := List.zipWith (fun s c => s * ecosRadius + c * esinRadius) sinCa cosCa
    let fxR0 := List.zipWith (· - ·) (List.zipWith (· - ·) zR0 tmpsin0) ell_array
    let ft_gx2_0 := fxR0.map (fun f => 0.5 / f)
    let ft_gx1_0 := fxR0.map (fun f => 0.5 / f)
    -- j = 1 to N_points pieces (2-D: outer index j, inner index the element)
    let zR := exp2R.map (fun c => center.map (fun x => x + radius * c))
    let zI := exp2I.map (fun s => radius * s)
    let tmpsin := List.zipWith
      (fun (ec : ℝ) (es : ℝ) => List.zipWith (fun s c => s * ec + c * es) sinCa cosCa)
      ecosR esinR
    let tmpcos := List.zipWith
      (fun (ec : ℝ) (es : ℝ) => List.zipWith (fun c s => c * ec - s * es) cosCa sinCa)
      ecosR esinR
    let fxRm := List.zipWith
      (fun (zt : List ℝ × List ℝ) (ch : ℝ) =>
        List.zipWith (· - ·)
          (List.zipWith (fun zr ts => zr - ts * ch) zt.1 zt.2) ell_array)
      (List.zipWith Prod.mk zR tmpsin) coshI
    let fxIm := List.zipWith
      (fun (zs : ℝ × ℝ) (trow : List ℝ) => trow.map (fun tc => zs.1 - tc * zs.2))
      (List.zipWith Prod.mk zI sinhI) tmpcos
    let ftmp := List.zipWith (List.zipWith (fun a b => a * a + b * b)) fxRm fxIm
    let fxR2 := List.zipWith (List.zipWith (· / ·)) fxRm ftmp
    let fxI2 := List.zipWith (List.zipWith (· / ·)) fxIm ftmp
    let rows2 := List.zipWith
      (fun (w : ℝ × ℝ) (rc : List ℝ × List ℝ) =>
        List.zipWith (fun a b => w.1 * a + w.2 * b) rc.1 rc.2)
      (List.zipWith Prod.mk exp4R exp4I) (List.zipWith Prod.mk fxR2 fxI2)
    let rows1 := List.zipWith
      (fun (w : ℝ × ℝ) (rc : List ℝ × List ℝ) =>
        List.zipWith (fun a b => w.1 * a + w.2 * b) rc.1 rc.2)
      (List.zipWith Prod.mk exp2R exp2I) (List.zipWith Prod.mk fxR2 fxI2)
    let zerosL := ell_array.map (fun _ => (0 : ℝ))
    let ft_gx2_1 := List.zipWith (· + ·) ft_gx2_0
      (rows2.foldl (fun acc r => List.zipWith (· + ·) acc r) zerosL)
    let ft_gx1_1 := List.zipWith (· + ·) ft_gx1_0
      (rows1.foldl (fun acc r => List.zipWith (· + ·) acc r) zerosL)
    -- j = N_it piece (z real, at center - radius)
    let zRL := center.map (fun c => c - radius)
    let tmpsinL := List.zipWith (fun s c => s * ecosRadius - c * esinRadius) sinCa cosCa
    let fxRL := List.zipWith (· - ·) (List.zipWith (· - ·) zRL tmpsinL) ell_array
    let ft_gx2_2 := List.zipWith (· + ·) ft_gx2_1 (fxRL.map (fun f => 0.5 / f))
    let ft_gx1_2 := List.zipWith (· + ·) ft_gx1_1 (fxRL.map (fun f => -0.5 / f))
    -- output += radius*ft_gx2/ft_gx1
    let output := List.zipWith (· + ·) center
      (List.zipWith (fun a b => radius * a / b) ft_gx2_2 ft_gx1_2)
    output

/-- The whole of `compute_contour` (source lines 3–116): the validation
chain of source lines 16–26 (each `raise ValueError` becomes an
`Except.error` with the source's message), then the numeric phase.  The
result also records the final binding of the parameter `ell_array`, which no
statement of the source ever reassigns or mutates (dask arrays are
immutable, and each `+=`/`/=` on a dask array rebinds a derived array). -/
noncomputable def compute_contourFull (ell_array : List ℝ) (eccentricity : ℝ) (N_it : ℤ) :
    List ℝ × Except String (List ℝ) :=
  if eccentricity ≤ 0 then
    (ell_array, Except.error "Eccentricity must be greater than zero!")
  else if 1 ≤ eccentricity then
    (ell_array, Except.error "Eccentricity must be less than unity!")
  else if 2 * Real.pi < listMax ell_array then
    (ell_array, Except.error "Mean anomaly should be in the range (0, 2 pi)")
  else if listMin ell_array < 0 then
    (ell_array, Except.error "Mean anomaly should be in the range (0, 2 pi)")
  else if N_it < 2 then
    (ell_array, Except.error "Need at least two sampling points!")
  else
    (ell_array, Except.ok (keplerNumeric ell_array eccentricity N_it))

/-- `compute_contour` as called by clients: just the returned value. -/
noncomputable def compute_contour (ell_array : List ℝ) (eccentricity : ℝ) (N_it : ℤ) :
    Except String (List ℝ) :=
  (compute_contourFull ell_array eccentricity N_it).2

/-! ### Array-algebra helpers: broadcasting collapses to `map` -/

theorem zip_mm {α β γ δ : Type*} (f : β → γ → δ) (g : α → β) (h : α → γ) (l : List α) :
    List.zipWith f (l.map g) (l.map h) = l.map (fun x => f (g x) (h x)) := by
  induction l with
  | nil => rfl
  | cons a l ih => simp [ih]

theorem zip_ml {α β δ : Type*} (f : β → α → δ) (g : α → β) (l : List α) :
    List.zipWith f (l.map g) l = l.map (fun x => f (g x) x) := by
  induction l with
  | nil => rfl
  | cons a l ih => simp [ih]

theorem zip_lm {α β δ : Type*} (f : α → β → δ) (g : α → β) (l : List α) :
    List.zipWith f l (l.map g) = l.map (fun x => f x (g x)) := by
  induction l with
  | nil => rfl
  | cons a l ih => simp [ih]

theorem foldl_zip_add (l : List ℝ) (js : List ℕ) (g : ℕ → ℝ → ℝ) (h : ℝ → ℝ) :
    js.foldl (fun acc j => List.zipWith (· + ·) acc (l.map (fun x => g j x))) (l.map h)
      = l.map (fun x => js.foldl (fun a j => a + g j x) (h x)) := by
  induction js generalizing h with
  | nil => rfl
  | cons j js ih =>
      simp only [List.foldl_cons, zip_mm]
      exact ih (fun x => h x + g j x)

/-- Central lemma: the broadcast numeric phase of the source computes
exactly the per-element function `keplerElem` mapped over the input array
(this needs no validation hypotheses — it is an identity of the array
program). -/
theorem keplerNumeric_eq_map (l : List ℝ) (e : ℝ) (n : ℤ) :
    keplerNumeric l e n = l.map (keplerElem e n) := by
  unfold keplerNumeric
  simp only [List.map_map, Function.comp_def, zip_mm, zip_ml, zip_lm,
    List.foldl_map, foldl_zip_add]
  refine List.map_congr_left fun x hx => ?_
  simp only [keplerElem, keplerGx1, keplerGx2, keplerT, keplerFxR0, keplerFxRL,
    sinC, cosC, contourCenter, NfftR]

/-- Once validation has passed, `compute_contour` returns the elementwise
result. -/
theorem compute_contour_eq_map (l : List ℝ) (e : ℝ) (n : ℤ)
    (he0 : ¬ e ≤ 0) (he1 : ¬ 1 ≤ e)
    (hmax : ¬ 2 * Real.pi < listMax l) (hmin : ¬ listMin l < 0) (hn : ¬ n < 2) :
    compute_contour l e n = Except.ok (l.map (keplerElem e n)) := by
  unfold compute_contour compute_contourFull
  rw [if_neg he0, if_neg he1, if_neg hmax, if_neg hmin, if_neg hn,
    keplerNumeric_eq_map]

/-! ### Validation characterisation -/

theorem lt_foldl_max_iff (t : List ℝ) (a c : ℝ) :
    c < t.foldl max a ↔ c < a ∨ ∃ x ∈ t, c < x := by
  induction t generalizing a with
  | nil => simp
  | cons b t ih =>
      simp only [List.foldl_cons]
      rw [ih]
      simp only [lt_max_iff, List.mem_cons]
      constructor
      · rintro ((h | h) | ⟨x, hx, hcx⟩)
        · exact Or.inl h
        · exact Or.inr ⟨b, Or.inl rfl, h⟩
        · exact Or.inr ⟨x, Or.inr hx, hcx⟩
      · rintro (h | ⟨x, (rfl | hx), hcx⟩)
        · exact Or.inl (Or.inl h)
        · exact Or.inl (Or.inr hcx)
        · exact Or.inr ⟨x, hx, hcx⟩

theorem foldl_min_lt_iff (t : List ℝ) (a c : ℝ) :
    t.foldl min a < c ↔ a < c ∨ ∃ x ∈ t, x < c := by
  induction t generalizing a with
  | nil => simp
  | cons b t ih =>
      simp only [List.foldl_cons]
      rw [ih]
      simp only [min_lt_iff, List.mem_cons]
      constructor
      · rintro ((h | h) | ⟨x, hx, hcx⟩)
        · exact Or.inl h
        · exact Or.inr ⟨b, Or.inl rfl, h⟩
        · exact Or.inr ⟨x, Or.inr hx, hcx⟩
      · rintro (h | ⟨x, (rfl | hx), hcx⟩)
        · exact Or.inl (Or.inl h)
        · exact Or.inl (Or.inr hcx)
        · exact Or.inr ⟨x, hx, hcx⟩

theorem lt_listMax_iff {l : List ℝ} (hl : l ≠ []) (c : ℝ) :
    c < listMax l ↔ ∃ x ∈ l, c < x := by
  cases l with
  | nil => exact absurd rfl hl
  | cons a t =>
      show c < t.foldl max a ↔ _
      rw [lt_foldl_max_iff]
      simp only [List.mem_cons]
      constructor
      · rintro (h | ⟨x, hx, hcx⟩)
        · exact ⟨a, Or.inl rfl, h⟩
        · exact ⟨x, Or.inr hx, hcx⟩
      · rintro ⟨x, (rfl | hx), hcx⟩
        · exact Or.inl hcx
        · exact Or.inr ⟨x, hx, hcx⟩

theorem listMin_lt_iff {l : List ℝ} (hl : l ≠ []) (c : ℝ) :
    listMin l < c ↔ ∃ x ∈ l, x < c := by
  cases l with
  | nil => exact absurd rfl hl
  | cons a t =>
      show t.foldl min a < c ↔ _
      rw [foldl_min_lt_iff]
      simp only [List.mem_cons]
      constructor
      · rintro (h | ⟨x, hx, hcx⟩)
        · exact ⟨a, Or.inl rfl, h⟩
        · exact ⟨x, Or.inr hx, hcx⟩
      · rintro ⟨x, (rfl | hx), hcx⟩
        · exact Or.inl hcx
        · exact Or.inr ⟨x, hx, hcx⟩

theorem compute_contour_error_iff (l : List ℝ) (e : ℝ) (n : ℤ) :
    (∃ msg, compute_contour l e n = Except.error msg) ↔
      (e ≤ 0 ∨ 1 ≤ e ∨ 2 * Real.pi < listMax l ∨ listMin l < 0 ∨ n < 2) := by
  unfold compute_contour compute_contourFull
  split_ifs with h1 h2 h3 h4 h5
  · exact iff_of_true ⟨_, rfl⟩ (Or.inl h1)
  · exact iff_of_true ⟨_, rfl⟩ (Or.inr (Or.inl h2))
  · exact iff_of_true ⟨_, rfl⟩ (Or.inr (Or.inr (Or.inl h3)))
  · exact iff_of_true ⟨_, rfl⟩ (Or.inr (Or.inr (Or.inr (Or.inl h4))))
  · exact iff_of_true ⟨_, rfl⟩ (Or.inr (Or.inr (Or.inr (Or.inr h5))))
  · refine iff_of_false ?_ (by tauto)
    rintro ⟨msg, hmsg⟩
    exact hmsg

theorem foldl_add_eq_sum (js : List ℕ) (f : ℕ → ℝ) :
    js.foldl (fun a j => a + f j) 0 = (js.map f).sum := by
  have key : ∀ c : ℝ, js.foldl (fun a j => a + f j) c = c + (js.map f).sum := by
    induction js with
    | nil => intro c; simp
    | cons j t ih => intro c; simp [List.foldl_cons, ih, add_assoc]
  simpa using key 0

/-! ### The specification's reference algorithm (spec §4.1, claim C1) -/

/-- The reference algorithm exactly as the specification words it
(spec §4.1 steps 1–5): `N_points = N_it − 2`, `N_fft = 2·(N_it − 1)`,
radius `r = e/2`; center `ℓ + e/2` when `ℓ < π` else `ℓ − e/2`; the right
edge at `center + r` contributes `0.5/fxR` to both accumulators, the left
edge at `center − r` contributes `0.5/fxR` to `gx2` and `−0.5/fxR` to `gx1`;
each interior sample `j` is inverted as `(fxR, fxI) ↦ (fxR/Σ, −fxI/Σ)` and
accumulated as the real part of the product with the weights
`(exp2R_j, exp2I_j)` for `gx1` and the double-angle weights
`(exp4R_j, exp4I_j)` for `gx2`; finally `E = center + r·(gx2/gx1)`. -/
noncomputable def specTerm (e : ℝ) (Nit : ℤ) (x : ℝ) (center : ℝ) (j : ℕ) : ℝ × ℝ :=
  let r := e / 2
  let Nfft : ℝ := (2 * (Nit - 1) : ℤ)
  let θ := 2 * Real.pi * ((j : ℝ) + 1) / Nfft
  let exp2R := Real.cos θ
  let exp2I := Real.sin θ
  let exp4R := exp2R ^ 2 - exp2I ^ 2
  let exp4I := 2 * exp2R * exp2I
  let ecosR := e * Real.cos (r * exp2R)
  let esinR := e * Real.sin (r * exp2R)
  let coshI := Real.cosh (r * exp2I)
  let sinhI := Real.sinh (r * exp2I)
  let zR := center + r * exp2R
  let zI := r * exp2I
  let esinz := Real.sin center * ecosR + Real.cos center * esinR
  let ecosz := Real.cos center * ecosR - Real.sin center * esinR
  let fxR := zR - esinz * coshI - x
  let fxI := zI - ecosz * sinhI
  let denom := fxR ^ 2 + fxI ^ 2
  let finvR := fxR / denom
  let finvI := -fxI / denom
  (exp4R * finvR - exp4I * finvI, exp2R * finvR - exp2I * finvI)

noncomputable def specContourElem (e : ℝ) (Nit : ℤ) (x : ℝ) : ℝ :=
  let r := e / 2
  let center := if x < Real.pi then x + e / 2 else x - e / 2
  let sinc := Real.sin center
  let cosc := Real.cos center
  let esinRadius := e * Real.sin r
  let ecosRadius := e * Real.cos r
  let fxRight := center + r - (sinc * ecosRadius + cosc * esinRadius) - x
  let fxLeft := center - r - (sinc * ecosRadius - cosc * esinRadius) - x
  let terms := (List.range (Nit - 2).toNat).map (specTerm e Nit x center)
  let gx2 := 0.5 / fxRight + (terms.map Prod.fst).sum + 0.5 / fxLeft
  let gx1 := 0.5 / fxRight + (terms.map Prod.snd).sum + -0.5 / fxLeft
  center + r * (gx2 / gx1)

theorem keplerT_eq_specTerm (e : ℝ) (n : ℤ) (x : ℝ) (j : ℕ) :
    keplerT e n x j = specTerm e n x (contourCenter e x) j := by
  have hNf : ((n - 1) * 2 : ℤ) = (2 * (n - 1) : ℤ) := by ring
  simp only [keplerT, specTerm, NfftR, sinC, cosC, hNf, Prod.mk.injEq]
  constructor <;> ring

set_option maxHeartbeats 800000 in
theorem keplerElem_eq_specContourElem (e : ℝ) (n : ℤ) (x : ℝ) :
    keplerElem e n x = specContourElem e n x := by
  have hc : contourCenter e x = (if x < Real.pi then x + e / 2 else x - e / 2) := by
    unfold contourCenter; split_ifs <;> ring
  have h1 : (fun j : ℕ => (keplerT e n x j).1)
      = fun j : ℕ => (specTerm e n x (contourCenter e x) j).1 :=
    funext fun j => by rw [keplerT_eq_specTerm]
  have h2 : (fun j : ℕ => (keplerT e n x j).2)
      = fun j : ℕ => (specTerm e n x (contourCenter e x) j).2 :=
    funext fun j => by rw [keplerT_eq_specTerm]
  unfold keplerElem keplerGx2 keplerGx1 keplerFxR0 keplerFxRL sinC cosC
  rw [foldl_add_eq_sum, foldl_add_eq_sum, h1, h2]
  simp only [specContourElem, List.map_map, Function.comp_def]
  rw [← hc]
  ring

/-! ### Claim theorems -/

/-- **C1**: for every mean-anomaly array, eccentricity and iteration count
that pass validation, the returned array equals, elementwise, the spec's
reference algorithm (`specContourElem`). -/
theorem C1_matches_spec_reference (l : List ℝ) (e : ℝ) (n : ℤ)
    (he0 : 0 < e) (he1 : e < 1)
    (hmax : listMax l ≤ 2 * Real.pi) (hmin : 0 ≤ listMin l) (hn : 2 ≤ n) :
    compute_contour l e n = Except.ok (l.map (specContourElem e n)) := by
  rw [compute_contour_eq_map l e n (not_le.mpr he0) (not_le.mpr he1)
    (not_lt.mpr hmax) (not_lt.mpr hmin) (not_lt.mpr hn)]
  exact congrArg Except.ok (List.map_congr_left fun x _ =>
    keplerElem_eq_specContourElem e n x)

/-- Witness for C1 at `l = [1]`, `e = 1/2`, `N_it = 2`. -/
theorem C1_matches_spec_reference_witness :
    compute_contour [1] (1/2) 2 = Except.ok ([1].map (specContourElem (1/2) 2)) :=
  C1_matches_spec_reference [1] (1/2) 2 (by norm_num) (by norm_num)
    (by show (1:ℝ) ≤ 2 * Real.pi; nlinarith [Real.pi_gt_three])
    (by show (0:ℝ) ≤ 1; norm_num) (by norm_num)

/-- **C2**: `solve` raises a `DomainError` exactly for: eccentricity ≤ 0,
eccentricity ≥ 1, some element > 2π, some element < 0, or iteration
count < 2; on every other (nonempty) input no validation error is raised and
the full output is produced. -/
theorem C2_validation_exactly (l : List ℝ) (e : ℝ) (n : ℤ) (hl : l ≠ []) :
    ((∃ msg, compute_contour l e n = Except.error msg) ↔
      (e ≤ 0 ∨ 1 ≤ e ∨ (∃ x ∈ l, 2 * Real.pi < x) ∨ (∃ x ∈ l, x < 0) ∨ n < 2))
    ∧ ((¬(e ≤ 0 ∨ 1 ≤ e ∨ (∃ x ∈ l, 2 * Real.pi < x) ∨ (∃ x ∈ l, x < 0) ∨ n < 2)) →
        compute_contour l e n = Except.ok (l.map (keplerElem e n))) := by
  have hmaxiff := lt_listMax_iff hl (2 * Real.pi)
  have hminiff := listMin_lt_iff hl 0
  constructor
  · rw [compute_contour_error_iff, hmaxiff, hminiff]
  · intro hcon
    exact compute_contour_eq_map l e n
      (fun h => hcon (Or.inl h))
      (fun h => hcon (Or.inr (Or.inl h)))
      (fun h => hcon (Or.inr (Or.inr (Or.inl (hmaxiff.mp h)))))
      (fun h => hcon (Or.inr (Or.inr (Or.inr (Or.inl (hminiff.mp h))))))
      (fun h => hcon (Or.inr (Or.inr (Or.inr (Or.inr h)))))

/-- Witness for C2 at `l = [1]`, `e = 1/2`, `N_it = 2`. -/
theorem C2_validation_exactly_witness :
    (∃ msg, compute_contour [1] (1/2) 2 = Except.error msg) ↔
      ((1:ℝ)/2 ≤ 0 ∨ 1 ≤ (1:ℝ)/2 ∨ (∃ x ∈ [(1:ℝ)], 2 * Real.pi < x) ∨
        (∃ x ∈ [(1:ℝ)], x < 0) ∨ (2:ℤ) < 2) :=
  (C2_validation_exactly [1] (1/2) 2 (by simp)).1

/-- **C3**: for every element `ℓ` of the input array the contour center is
`ℓ + e/2` when `ℓ < π` and `ℓ − e/2` otherwise, and `sinC`, `cosC` are the
sine and cosine of that center. -/
theorem C3_contour_center (l : List ℝ) (e : ℝ) :
    ∀ x ∈ l, contourCenter e x = (if x < Real.pi then x + e / 2 else x - e / 2)
      ∧ sinC e x = Real.sin (contourCenter e x)
      ∧ cosC e x = Real.cos (contourCenter e x) := by
  intro x _
  refine ⟨?_, rfl, rfl⟩
  unfold contourCenter
  split_ifs <;> ring

/-- Witness for C3 at `l = [1]`, `e = 1/2`. -/
theorem C3_contour_center_witness :
    contourCenter (1/2) 1 = (if (1:ℝ) < Real.pi then 1 + (1/2) / 2 else 1 - (1/2) / 2)
      ∧ sinC (1/2) 1 = Real.sin (contourCenter (1/2) 1)
      ∧ cosC (1/2) 1 = Real.cos (contourCenter (1/2) 1) :=
  C3_contour_center [1] (1/2) 1 (by simp)

/-- **C4**: partitioning a valid array into nonempty contiguous sub-arrays,
solving each independently and concatenating, gives exactly the result of
solving the whole array in one call. -/
theorem C4_partition_concat (parts : List (List ℝ)) (e : ℝ) (n : ℤ)
    (hps : parts ≠ []) (hne : ∀ p ∈ parts, p ≠ [])
    (he0 : 0 < e) (he1 : e < 1) (hn : 2 ≤ n)
    (hrange : ∀ x ∈ parts.flatten, 0 ≤ x ∧ x ≤ 2 * Real.pi) :
    ∃ outs : List (List ℝ),
      List.Forall₂ (fun p o => compute_contour p e n = Except.ok o) parts outs ∧
      compute_contour parts.flatten e n = Except.ok outs.flatten := by
  have solve_ok : ∀ (m : List ℝ), m ≠ [] → (∀ x ∈ m, 0 ≤ x ∧ x ≤ 2 * Real.pi) →
      compute_contour m e n = Except.ok (m.map (keplerElem e n)) := by
    intro m hm hr
    refine compute_contour_eq_map m e n (not_le.mpr he0) (not_le.mpr he1) ?_ ?_
      (not_lt.mpr hn)
    · rw [lt_listMax_iff hm]
      rintro ⟨x, hx, hgt⟩
      exact absurd (hr x hx).2 (not_le.mpr hgt)
    · rw [listMin_lt_iff hm]
      rintro ⟨x, hx, hlt⟩
      exact absurd (hr x hx).1 (not_le.mpr hlt)
  refine ⟨parts.map (List.map (keplerElem e n)), ?_, ?_⟩
  · rw [List.forall₂_map_right_iff]
    refine List.forall₂_same.mpr fun p hp => ?_
    exact solve_ok p (hne p hp) fun x hx => hrange x (List.mem_flatten.mpr ⟨p, hp, hx⟩)
  · have hfl : parts.flatten ≠ [] := by
      cases parts with
      | nil => exact absurd rfl hps
      | cons p ps =>
          have hp : p ≠ [] := hne p (List.mem_cons_self p ps)
          cases p with
          | nil => exact absurd rfl hp
          | cons a t => simp
    rw [solve_ok parts.flatten hfl hrange, List.map_flatten]

/-- Witness for C4 at `parts = [[1], [2]]`, `e = 1/2`, `N_it = 2`. -/
theorem C4_partition_concat_witness :
    ∃ outs : List (List ℝ),
      List.Forall₂ (fun p o => compute_contour p (1/2) 2 = Except.ok o) [[1], [2]] outs ∧
      compute_contour [[(1:ℝ)], [2]].flatten (1/2) 2 = Except.ok outs.flatten :=
  C4_partition_concat [[1], [2]] (1/2) 2 (by simp) (by simp)
    (by norm_num) (by norm_num) (by norm_num)
    (by
      intro x hx
      have hx' : x = 1 ∨ x = 2 := by simpa using hx
      rcases hx' with rfl | rfl
      · constructor
        · norm_num
        · nlinarith [Real.pi_gt_three]
      · constructor
        · norm_num
        · nlinarith [Real.pi_gt_three])

/-- **C5**: `solve` is a deterministic pure function of its three inputs:
identical inputs give identical outputs (and the embedding is a pure
function, so a call has no effect on any other state). -/
theorem C5_deterministic (l l' : List ℝ) (e e' : ℝ) (n n' : ℤ)
    (hl : l = l') (he : e = e') (hn : n = n') :
    compute_contour l e n = compute_contour l' e' n' := by
  rw [hl, he, hn]

/-- Witness for C5. -/
theorem C5_deterministic_witness :
    compute_contour [1] (1/2) 3 = compute_contour [1] (1/2) 3 :=
  C5_deterministic [1] [1] (1/2) (1/2) 3 3 rfl rfl rfl

/-- **C6**: arrays containing the exact endpoints `ℓ = 0` and/or `ℓ = 2π`
pass validation and the call returns an output array (of the input's
length) without raising. -/
theorem C6_boundary_accepted (l : List ℝ) (e : ℝ) (n : ℤ)
    (he0 : 0 < e) (he1 : e < 1) (hn : 2 ≤ n)
    (hend : (0:ℝ) ∈ l ∨ 2 * Real.pi ∈ l)
    (hrange : ∀ x ∈ l, 0 ≤ x ∧ x ≤ 2 * Real.pi) :
    ∃ out, compute_contour l e n = Except.ok out ∧ out.length = l.length := by
  have hl : l ≠ [] := by
    rcases hend with h | h <;> exact List.ne_nil_of_mem h
  refine ⟨l.map (keplerElem e n), ?_, List.length_map l _⟩
  refine compute_contour_eq_map l e n (not_le.mpr he0) (not_le.mpr he1) ?_ ?_
    (not_lt.mpr hn)
  · rw [lt_listMax_iff hl]
    rintro ⟨x, hx, hgt⟩
    exact absurd (hrange x hx).2 (not_le.mpr hgt)
  · rw [listMin_lt_iff hl]
    rintro ⟨x, hx, hlt⟩
    exact absurd (hrange x hx).1 (not_le.mpr hlt)

/-- Witness for C6 at `l = [0, 2π]`, `e = 1/2`, `N_it = 2`. -/
theorem C6_boundary_accepted_witness :
    ∃ out, compute_contour [0, 2 * Real.pi] (1/2) 2 = Except.ok out ∧
      out.length = [(0:ℝ), 2 * Real.pi].length :=
  C6_boundary_accepted [0, 2 * Real.pi] (1/2) 2 (by norm_num) (by norm_num)
    (by norm_num) (Or.inl (by simp))
    (by
      intro x hx
      simp only [List.mem_cons, List.not_mem_nil, or_false] at hx
      rcases hx with rfl | rfl
      · exact ⟨le_refl 0, by positivity⟩
      · exact ⟨by positivity, le_refl _⟩)

/-- **C7**: the input mean-anomaly array is only read, never written: the
final binding of `ell_array` equals the input whether the call raises or
returns, and the output is a fresh array built by the numeric phase. -/
theorem C7_input_unchanged (l : List ℝ) (e : ℝ) (n : ℤ) :
    (compute_contourFull l e n).1 = l := by
  unfold compute_contourFull
  split_ifs <;> rfl

/-- **C8**: once validation has passed the numeric phase never raises: it
always produces the full output array, with every division taken as an
unguarded total operation. -/
theorem C8_numeric_phase_total (l : List ℝ) (e : ℝ) (n : ℤ)
    (he0 : 0 < e) (he1 : e < 1)
    (hmax : listMax l ≤ 2 * Real.pi) (hmin : 0 ≤ listMin l) (hn : 2 ≤ n) :
    compute_contour l e n = Except.ok (l.map (keplerElem e n)) :=
  compute_contour_eq_map l e n (not_le.mpr he0) (not_le.mpr he1)
    (not_lt.mpr hmax) (not_lt.mpr hmin) (not_lt.mpr hn)

/-- Witness for C8 at `l = [1]`, `e = 1/2`, `N_it = 2`. -/
theorem C8_numeric_phase_total_witness :
    compute_contour [1] (1/2) 2 = Except.ok ([1].map (keplerElem (1/2) 2)) :=
  C8_numeric_phase_total [1] (1/2) 2 (by norm_num) (by norm_num)
    (by show (1:ℝ) ≤ 2 * Real.pi; nlinarith [Real.pi_gt_three])
    (by show (0:ℝ) ≤ 1; norm_num) (by norm_num)

/-- **C10**: with iteration count exactly 2, the interior sample set is
empty (`N_points = 0`) and the result is `center + r·(gx2/gx1)` computed
from the two edge terms alone. -/
theorem C10_minimal_iterations (l : List ℝ) (e : ℝ)
    (he0 : 0 < e) (he1 : e < 1)
    (hmax : listMax l ≤ 2 * Real.pi) (hmin : 0 ≤ listMin l) :
    compute_contour l e 2 =
      Except.ok (l.map (fun x => contourCenter e x
        + e / 2 * (0.5 / keplerFxR0 e x + 0.5 / keplerFxRL e x)
          / (0.5 / keplerFxR0 e x + -0.5 / keplerFxRL e x)))
    ∧ ((2:ℤ) - 2).toNat = 0 := by
  refine ⟨?_, rfl⟩
  rw [compute_contour_eq_map l e 2 (not_le.mpr he0) (not_le.mpr he1)
    (not_lt.mpr hmax) (not_lt.mpr hmin) (not_lt.mpr (le_refl 2))]
  refine congrArg Except.ok (List.map_congr_left fun x _ => ?_)
  have h0 : ((2:ℤ) - 2).toNat = 0 := rfl
  simp [keplerElem, keplerGx2, keplerGx1, h0]

/-! ### Verified fixed-point interval arithmetic

Used to settle claim C9, which requires rigorous numeric bounds on the
solver's output at a concrete input.  Interval endpoints are integers `a`
denoting the real number `a / 2^80`; all operations round outward. -/

def scl : ℤ := 2 ^ 80

/-- Ceiling division on `ℤ` (for a positive divisor). -/
def cdiv (a b : ℤ) : ℤ := -((-a).fdiv b)

/-- The real value denoted by a fixed-point mantissa. -/
noncomputable def fpR (a : ℤ) : ℝ := (a : ℝ) / (scl : ℝ)

theorem scl_pos : (0:ℤ) < scl := by norm_num [scl]

theorem sclR_pos : (0:ℝ) < (scl : ℝ) := by exact_mod_cast scl_pos

theorem fdiv_le (a : ℤ) {b : ℤ} (hb : 0 < b) :
    ((a.fdiv b : ℤ) : ℝ) ≤ (a : ℝ) / (b : ℝ) := by
  rw [le_div_iff₀ (by exact_mod_cast hb : (0:ℝ) < (b:ℝ))]
  have h := Int.ediv_mul_le a (ne_of_gt hb)
  rw [Int.fdiv_eq_ediv _ (le_of_lt hb)]
  exact_mod_cast h

theorem le_cdiv (a : ℤ) {b : ℤ} (hb : 0 < b) :
    (a : ℝ) / (b : ℝ) ≤ ((cdiv a b : ℤ) : ℝ) := by
  have h := fdiv_le (-a) hb
  rw [cdiv]
  push_cast at h ⊢
  rw [neg_div] at h
  linarith

theorem fpR_mono {a b : ℤ} (h : a ≤ b) : fpR a ≤ fpR b := by
  unfold fpR
  exact (div_le_div_iff_of_pos_right sclR_pos).mpr (by exact_mod_cast h)

structure Ival where
  lo : ℤ
  hi : ℤ
deriving DecidableEq, Repr

/-- `x` lies in the interval denoted by `I`. -/
noncomputable def Ival.contains (I : Ival) (x : ℝ) : Prop :=
  fpR I.lo ≤ x ∧ x ≤ fpR I.hi

def Ival.add (I J : Ival) : Ival := ⟨I.lo + J.lo, I.hi + J.hi⟩

def Ival.neg (I : Ival) : Ival := ⟨-I.hi, -I.lo⟩

def Ival.sub (I J : Ival) : Ival := I.add J.neg

def min4 (a b c d : ℤ) : ℤ := min (min a b) (min c d)

def max4 (a b c d : ℤ) : ℤ := max (max a b) (max c d)

def Ival.mul (I J : Ival) : Ival :=
  ⟨(min4 (I.lo*J.lo) (I.lo*J.hi) (I.hi*J.lo) (I.hi*J.hi)).fdiv scl,
   cdiv (max4 (I.lo*J.lo) (I.lo*J.hi) (I.hi*J.lo) (I.hi*J.hi)) scl⟩

def Ival.sq (I : Ival) : Ival :=
  let m := I.mul I
  ⟨max m.lo 0, m.hi⟩

def Ival.dbl (I : Ival) : Ival := ⟨2 * I.lo, 2 * I.hi⟩

def Ival.halve (I : Ival) : Ival := ⟨I.lo.fdiv 2, cdiv I.hi 2⟩

def Ival.inv (I : Ival) : Ival :=
  if 0 < I.lo then ⟨(scl*scl).fdiv I.hi, cdiv (scl*scl) I.lo⟩
  else ⟨-(cdiv (scl*scl) (-I.hi)), -((scl*scl).fdiv (-I.lo))⟩

def Ival.ofRat (p q : ℤ) : Ival := ⟨(p*scl).fdiv q, cdiv (p*scl) q⟩

def Ival.ofInt (m : ℤ) : Ival := ⟨m * scl, m * scl⟩

theorem fpR_add (a b : ℤ) : fpR (a + b) = fpR a + fpR b := by
  unfold fpR; push_cast; rw [add_div]

theorem fpR_neg (a : ℤ) : fpR (-a) = -fpR a := by
  unfold fpR; push_cast; rw [neg_div]

theorem Ival.contains_add {I J : Ival} {x y : ℝ}
    (hI : I.contains x) (hJ : J.contains y) : (I.add J).contains (x + y) := by
  obtain ⟨h1, h2⟩ := hI
  obtain ⟨h3, h4⟩ := hJ
  constructor
  · show fpR (I.lo + J.lo) ≤ x + y
    rw [fpR_add]; linarith
  · show x + y ≤ fpR (I.hi + J.hi)
    rw [fpR_add]; linarith

theorem Ival.contains_neg {I : Ival} {x : ℝ} (hI : I.contains x) :
    (I.neg).contains (-x) := by
  obtain ⟨h1, h2⟩ := hI
  exact ⟨by rw [show I.neg.lo = -I.hi from rfl, fpR_neg]; linarith,
    by rw [show I.neg.hi = -I.lo from rfl, fpR_neg]; linarith⟩

theorem Ival.contains_sub {I J : Ival} {x y : ℝ}
    (hI : I.contains x) (hJ : J.contains y) : (I.sub J).contains (x - y) := by
  have h := Ival.contains_add hI (Ival.contains_neg hJ)
  rw [← sub_eq_add_neg] at h
  exact h

theorem fdiv_scl_le (m : ℤ) : fpR (m.fdiv scl) ≤ (m:ℝ)/((scl:ℝ)*(scl:ℝ)) := by
  unfold fpR
  rw [← div_div]
  exact (div_le_div_iff_of_pos_right sclR_pos).mpr (fdiv_le m scl_pos)

theorem le_cdiv_scl (m : ℤ) : (m:ℝ)/((scl:ℝ)*(scl:ℝ)) ≤ fpR (cdiv m scl) := by
  unfold fpR
  rw [← div_div]
  exact (div_le_div_iff_of_pos_right sclR_pos).mpr (le_cdiv m scl_pos)

theorem prodR (A C : ℤ) : ((A * C : ℤ) : ℝ)/((scl:ℝ)*(scl:ℝ)) = fpR A * fpR C := by
  unfold fpR; push_cast; ring

theorem rect_lower {a b c d x y : ℝ} (hax : a ≤ x) (hxb : x ≤ b)
    (hcy : c ≤ y) (hyd : y ≤ d) :
    a*c ≤ x*y ∨ a*d ≤ x*y ∨ b*c ≤ x*y ∨ b*d ≤ x*y := by
  rcases le_total 0 y with hy | hy
  · have hxy : a * y ≤ x * y := mul_le_mul_of_nonneg_right hax hy
    rcases le_total 0 a with ha | ha
    · exact Or.inl ((mul_le_mul_of_nonneg_left hcy ha).trans hxy)
    · exact Or.inr (Or.inl ((mul_le_mul_of_nonpos_left hyd ha).trans hxy))
  · have hxy : b * y ≤ x * y := mul_le_mul_of_nonpos_right hxb hy
    rcases le_total 0 b with hb | hb
    · exact Or.inr (Or.inr (Or.inl ((mul_le_mul_of_nonneg_left hcy hb).trans hxy)))
    · exact Or.inr (Or.inr (Or.inr ((mul_le_mul_of_nonpos_left hyd hb).trans hxy)))

theorem rect_upper {a b c d x y : ℝ} (hax : a ≤ x) (hxb : x ≤ b)
    (hcy : c ≤ y) (hyd : y ≤ d) :
    x*y ≤ a*c ∨ x*y ≤ a*d ∨ x*y ≤ b*c ∨ x*y ≤ b*d := by
  rcases le_total 0 y with hy | hy
  · have hxy : x * y ≤ b * y := mul_le_mul_of_nonneg_right hxb hy
    rcases le_total 0 b with hb | hb
    · exact Or.inr (Or.inr (Or.inr (hxy.trans (mul_le_mul_of_nonneg_left hyd hb))))
    · exact Or.inr (Or.inr (Or.inl (hxy.trans (mul_le_mul_of_nonpos_left hcy hb))))
  · have hxy : x * y ≤ a * y := mul_le_mul_of_nonpos_right hax hy
    rcases le_total 0 a with ha | ha
    · exact Or.inr (Or.inl (hxy.trans (mul_le_mul_of_nonneg_left hyd ha)))
    · exact Or.inl (hxy.trans (mul_le_mul_of_nonpos_left hcy ha))

theorem fdiv_min4_le_prod (A C : ℤ) {m : ℤ} (hm : m ≤ A * C) :
    fpR (m.fdiv scl) ≤ fpR A * fpR C := by
  refine (fdiv_scl_le m).trans ?_
  rw [← prodR]
  exact (div_le_div_iff_of_pos_right (mul_pos sclR_pos sclR_pos)).mpr (by exact_mod_cast hm)

theorem prod_le_cdiv_max4 (A C : ℤ) {m : ℤ} (hm : A * C ≤ m) :
    fpR A * fpR C ≤ fpR (cdiv m scl) := by
  refine le_trans ?_ (le_cdiv_scl m)
  rw [← prodR]
  exact (div_le_div_iff_of_pos_right (mul_pos sclR_pos sclR_pos)).mpr (by exact_mod_cast hm)

theorem Ival.contains_mul {I J : Ival} {x y : ℝ}
    (hI : I.contains x) (hJ : J.contains y) : (I.mul J).contains (x * y) := by
  obtain ⟨h1, h2⟩ := hI
  obtain ⟨h3, h4⟩ := hJ
  constructor
  · show fpR ((min4 (I.lo*J.lo) (I.lo*J.hi) (I.hi*J.lo) (I.hi*J.hi)).fdiv scl) ≤ x * y
    rcases rect_lower h1 h2 h3 h4 with h | h | h | h
    · exact le_trans (fdiv_min4_le_prod I.lo J.lo
        ((min_le_left _ _).trans (min_le_left _ _))) h
    · exact le_trans (fdiv_min4_le_prod I.lo J.hi
        ((min_le_left _ _).trans (min_le_right _ _))) h
    · exact le_trans (fdiv_min4_le_prod I.hi J.lo
        ((min_le_right _ _).trans (min_le_left _ _))) h
    · exact le_trans (fdiv_min4_le_prod I.hi J.hi
        ((min_le_right _ _).trans (min_le_right _ _))) h
  · show x * y ≤ fpR (cdiv (max4 (I.lo*J.lo) (I.lo*J.hi) (I.hi*J.lo) (I.hi*J.hi)) scl)
    rcases rect_upper h1 h2 h3 h4 with h | h | h | h
    · exact le_trans h (prod_le_cdiv_max4 I.lo J.lo
        ((le_max_left _ _).trans (le_max_left _ _)))
    · exact le_trans h (prod_le_cdiv_max4 I.lo J.hi
        ((le_max_right _ _).trans (le_max_left _ _)))
    · exact le_trans h (prod_le_cdiv_max4 I.hi J.lo
        ((le_max_left _ _).trans (le_max_right _ _)))
    · exact le_trans h (prod_le_cdiv_max4 I.hi J.hi
        ((le_max_right _ _).trans (le_max_right _ _)))

theorem Ival.contains_sq {I : Ival} {x : ℝ} (hI : I.contains x) :
    (I.sq).contains (x * x) := by
  have hm := Ival.contains_mul hI hI
  constructor
  · show fpR (max (I.mul I).lo 0) ≤ x * x
    have hcast : fpR (max (I.mul I).lo 0) = max (fpR (I.mul I).lo) (fpR 0) := by
      unfold fpR; push_cast [Int.cast_max]
      rw [max_div_div_right (le_of_lt sclR_pos)]
    rw [hcast]
    refine max_le hm.1 ?_
    have : fpR 0 = 0 := by unfold fpR; simp
    rw [this]
    exact mul_self_nonneg x
  · exact hm.2

theorem Ival.contains_dbl {I : Ival} {x : ℝ} (hI : I.contains x) :
    (I.dbl).contains (2 * x) := by
  obtain ⟨h1, h2⟩ := hI
  have hmul : ∀ a : ℤ, fpR (2 * a) = 2 * fpR a := by
    intro a; unfold fpR; push_cast; ring
  exact ⟨by rw [show (I.dbl).lo = 2 * I.lo from rfl, hmul]; linarith,
    by rw [show (I.dbl).hi = 2 * I.hi from rfl, hmul]; linarith⟩

theorem Ival.contains_halve {I : Ival} {x : ℝ} (hI : I.contains x) :
    (I.halve).contains (x / 2) := by
  obtain ⟨h1, h2⟩ := hI
  constructor
  · show fpR (I.lo.fdiv 2) ≤ x / 2
    have h : ((I.lo.fdiv 2 : ℤ) : ℝ) ≤ (I.lo : ℝ) / 2 := fdiv_le I.lo (by norm_num)
    have hh : fpR (I.lo.fdiv 2) ≤ fpR I.lo / 2 := by
      unfold fpR
      rw [div_div, mul_comm (scl:ℝ) 2, ← div_div]
      exact (div_le_div_iff_of_pos_right sclR_pos).mpr h
    linarith
  · show x / 2 ≤ fpR (cdiv I.hi 2)
    have h : (I.hi : ℝ) / 2 ≤ ((cdiv I.hi 2 : ℤ) : ℝ) := le_cdiv I.hi (by norm_num)
    have hh : fpR I.hi / 2 ≤ fpR (cdiv I.hi 2) := by
      unfold fpR
      rw [div_div, mul_comm (scl:ℝ) 2, ← div_div]
      exact (div_le_div_iff_of_pos_right sclR_pos).mpr h
    linarith

theorem inv_bounds_pos {A B : ℤ} {x : ℝ} (hA : 0 < A) (h1 : fpR A ≤ x) (h2 : x ≤ fpR B) :
    fpR ((scl*scl).fdiv B) ≤ x⁻¹ ∧ x⁻¹ ≤ fpR (cdiv (scl*scl) A) := by
  have hApos : (0:ℝ) < fpR A := div_pos (by exact_mod_cast hA) sclR_pos
  have hxpos : 0 < x := lt_of_lt_of_le hApos h1
  have hBposR : (0:ℝ) < fpR B := lt_of_lt_of_le hxpos h2
  have hB : (0:ℤ) < B := by
    by_contra hBn
    push_neg at hBn
    have : fpR B ≤ fpR 0 := fpR_mono hBn
    have h0 : fpR 0 = 0 := by unfold fpR; simp
    rw [h0] at this
    linarith
  have hsclsq : ((scl * scl : ℤ) : ℝ) = (scl:ℝ) * (scl:ℝ) := by push_cast; ring
  constructor
  · have e1 : fpR ((scl*scl).fdiv B) ≤ (((scl*scl : ℤ):ℝ)/(B:ℝ))/(scl:ℝ) := by
      unfold fpR
      exact (div_le_div_iff_of_pos_right sclR_pos).mpr (fdiv_le _ hB)
    have e2 : (((scl*scl : ℤ):ℝ)/(B:ℝ))/(scl:ℝ) = (fpR B)⁻¹ := by
      unfold fpR
      rw [hsclsq, inv_div, div_div, mul_comm (B:ℝ) (scl:ℝ), ← div_div,
        mul_div_assoc, div_self (ne_of_gt sclR_pos), mul_one]
    have e3 : (fpR B)⁻¹ ≤ x⁻¹ := by
      rw [inv_eq_one_div, inv_eq_one_div]
      exact one_div_le_one_div_of_le hxpos h2
    rw [e2] at e1
    linarith
  · have e1 : ((scl:ℝ)*(scl:ℝ)/(A:ℝ))/(scl:ℝ) ≤ fpR (cdiv (scl*scl) A) := by
      unfold fpR
      refine (div_le_div_iff_of_pos_right sclR_pos).mpr ?_
      rw [← hsclsq]
      exact le_cdiv _ hA
    have e2 : ((scl:ℝ)*(scl:ℝ)/(A:ℝ))/(scl:ℝ) = (fpR A)⁻¹ := by
      unfold fpR
      rw [inv_div, div_div, mul_comm (A:ℝ) (scl:ℝ), ← div_div,
        mul_div_assoc, div_self (ne_of_gt sclR_pos), mul_one]
    have e3 : x⁻¹ ≤ (fpR A)⁻¹ := by
      rw [inv_eq_one_div, inv_eq_one_div]
      exact one_div_le_one_div_of_le hApos h1
    rw [e2] at e1
    linarith

theorem Ival.contains_inv {I : Ival} {x : ℝ} (hI : I.contains x)
    (hsign : 0 < I.lo ∨ I.hi < 0) : (I.inv).contains x⁻¹ := by
  obtain ⟨h1, h2⟩ := hI
  by_cases hpos : 0 < I.lo
  · rw [Ival.inv, if_pos hpos]
    exact ⟨(inv_bounds_pos hpos h1 h2).1, (inv_bounds_pos hpos h1 h2).2⟩
  · have hneg : I.hi < 0 := by
      rcases hsign with h | h
      · exact absurd h hpos
      · exact h
    rw [Ival.inv, if_neg hpos]
    have hb := inv_bounds_pos (A := -I.hi) (B := -I.lo) (x := -x)
      (by omega) (by rw [fpR_neg]; linarith) (by rw [fpR_neg]; linarith)
    have hinv : (-x)⁻¹ = -x⁻¹ := inv_neg
    rw [hinv] at hb
    constructor
    · show fpR (-(cdiv (scl*scl) (-I.hi))) ≤ x⁻¹
      rw [fpR_neg]
      linarith [hb.2]
    · show x⁻¹ ≤ fpR (-((scl*scl).fdiv (-I.lo)))
      rw [fpR_neg]
      linarith [hb.1]

theorem Ival.contains_ofRat {p q : ℤ} (hq : 0 < q) :
    (Ival.ofRat p q).contains ((p:ℝ)/(q:ℝ)) := by
  have hqR : (0:ℝ) < (q:ℝ) := by exact_mod_cast hq
  have heq : (((p * scl : ℤ):ℝ)/(q:ℝ))/(scl:ℝ) = (p:ℝ)/(q:ℝ) := by
    push_cast
    rw [div_div, mul_comm (q:ℝ) (scl:ℝ), ← div_div, mul_div_assoc,
      div_self (ne_of_gt sclR_pos), mul_one]
  constructor
  · show fpR ((p*scl).fdiv q) ≤ (p:ℝ)/(q:ℝ)
    have h : fpR ((p*scl).fdiv q) ≤ (((p*scl : ℤ):ℝ)/(q:ℝ))/(scl:ℝ) := by
      unfold fpR
      exact (div_le_div_iff_of_pos_right sclR_pos).mpr (fdiv_le _ hq)
    rw [heq] at h
    exact h
  · show (p:ℝ)/(q:ℝ) ≤ fpR (cdiv (p*scl) q)
    have h : (((p*scl : ℤ):ℝ)/(q:ℝ))/(scl:ℝ) ≤ fpR (cdiv (p*scl) q) := by
      unfold fpR
      exact (div_le_div_iff_of_pos_right sclR_pos).mpr (le_cdiv _ hq)
    rw [heq] at h
    exact h

theorem Ival.contains_ofInt (m : ℤ) : (Ival.ofInt m).contains (m:ℝ) := by
  have h : fpR (m * scl) = (m:ℝ) := by
    unfold fpR
    push_cast
    rw [mul_div_assoc, div_self (ne_of_gt sclR_pos), mul_one]
  exact ⟨le_of_eq h, le_of_eq h.symm⟩

/-! ### Flag-carrying intervals -/

structure IB where
  iv : Ival
  ok : Bool
deriving DecidableEq, Repr

/-- `x` is enclosed by `p` whenever `p`'s validity flag is set. -/
noncomputable def IB.encl (p : IB) (x : ℝ) : Prop := p.ok = true → p.iv.contains x

def IB.add (p q : IB) : IB := ⟨p.iv.add q.iv, p.ok && q.ok⟩

def IB.sub (p q : IB) : IB := ⟨p.iv.sub q.iv, p.ok && q.ok⟩

def IB.mul (p q : IB) : IB := ⟨p.iv.mul q.iv, p.ok && q.ok⟩

def IB.neg (p : IB) : IB := ⟨p.iv.neg, p.ok⟩

def IB.sq (p : IB) : IB := ⟨p.iv.sq, p.ok⟩

def IB.dbl (p : IB) : IB := ⟨p.iv.dbl, p.ok⟩

def IB.halve (p : IB) : IB := ⟨p.iv.halve, p.ok⟩

def IB.inv (p : IB) : IB :=
  ⟨p.iv.inv, p.ok && (decide (0 < p.iv.lo) || decide (p.iv.hi < 0))⟩

def IB.div (p q : IB) : IB := p.mul q.inv

def IB.ofRat (p q : ℤ) : IB := ⟨Ival.ofRat p q, decide (0 < q)⟩

def IB.ofInt (m : ℤ) : IB := ⟨Ival.ofInt m, true⟩

def IB.pow (p : IB) : ℕ → IB
  | 0 => IB.ofInt 1
  | n+1 => p.mul (p.pow n)

theorem IB.encl_add {p q : IB} {x y : ℝ} (hp : p.encl x) (hq : q.encl y) :
    (p.add q).encl (x + y) := by
  intro h
  simp only [IB.add, Bool.and_eq_true] at h
  obtain ⟨h1, h2⟩ := h
  exact Ival.contains_add (hp h1) (hq h2)

theorem IB.encl_sub {p q : IB} {x y : ℝ} (hp : p.encl x) (hq : q.encl y) :
    (p.sub q).encl (x - y) := by
  intro h
  simp only [IB.sub, Bool.and_eq_true] at h
  obtain ⟨h1, h2⟩ := h
  exact Ival.contains_sub (hp h1) (hq h2)

theorem IB.encl_mul {p q : IB} {x y : ℝ} (hp : p.encl x) (hq : q.encl y) :
    (p.mul q).encl (x * y) := by
  intro h
  simp only [IB.mul, Bool.and_eq_true] at h
  obtain ⟨h1, h2⟩ := h
  exact Ival.contains_mul (hp h1) (hq h2)

theorem IB.encl_neg {p : IB} {x : ℝ} (hp : p.encl x) : (p.neg).encl (-x) :=
  fun h => Ival.contains_neg (hp h)

theorem IB.encl_sq {p : IB} {x : ℝ} (hp : p.encl x) : (p.sq).encl (x * x) :=
  fun h => Ival.contains_sq (hp h)

theorem IB.encl_dbl {p : IB} {x : ℝ} (hp : p.encl x) : (p.dbl).encl (2 * x) :=
  fun h => Ival.contains_dbl (hp h)

theorem IB.encl_halve {p : IB} {x : ℝ} (hp : p.encl x) : (p.halve).encl (x / 2) :=
  fun h => Ival.contains_halve (hp h)

theorem IB.encl_inv {q : IB} {y : ℝ} (hq : q.encl y) : (q.inv).encl y⁻¹ := by
  intro h
  simp only [IB.inv, Bool.and_eq_true] at h
  obtain ⟨h1, h2⟩ := h
  have hsign : 0 < q.iv.lo ∨ q.iv.hi < 0 := by simpa using h2
  exact Ival.contains_inv (hq h1) hsign

theorem IB.encl_div {p q : IB} {x y : ℝ} (hp : p.encl x) (hq : q.encl y) :
    (p.div q).encl (x / y) := by
  rw [div_eq_mul_inv]
  exact IB.encl_mul hp (IB.encl_inv hq)

theorem IB.encl_ofRat {p q : ℤ} (hq : 0 < q) :
    (IB.ofRat p q).encl ((p:ℝ)/(q:ℝ)) :=
  fun _ => Ival.contains_ofRat hq

theorem IB.encl_ofInt (m : ℤ) : (IB.ofInt m).encl (m:ℝ) :=
  fun _ => Ival.contains_ofInt m

theorem IB.encl_pow {p : IB} {x : ℝ} (hp : p.encl x) :
    ∀ n : ℕ, (p.pow n).encl (x ^ n)
  | 0 => by
      have h := IB.encl_ofInt 1
      rw [show ((1:ℤ):ℝ) = 1 by norm_num] at h
      rw [pow_zero]
      exact h
  | n+1 => by
      have h := IB.encl_mul hp (IB.encl_pow hp n)
      rw [show x * x ^ n = x ^ (n+1) by rw [pow_succ]; ring] at h
      exact h

theorem IB.encl_foldl_add (js : List ℕ) (f : ℕ → IB) (g : ℕ → ℝ)
    (hf : ∀ j ∈ js, (f j).encl (g j)) :
    ∀ {p0 : IB} {x0 : ℝ}, p0.encl x0 →
      (js.foldl (fun acc j => acc.add (f j)) p0).encl
        (js.foldl (fun a j => a + g j) x0) := by
  induction js with
  | nil => intro p0 x0 h0; exact h0
  | cons j t ih =>
      intro p0 x0 h0
      exact ih (fun i hi => hf i (List.mem_cons_of_mem j hi))
        (IB.encl_add h0 (hf j (List.mem_cons_self j t)))

/-- Transport an enclosure along an equality of the enclosed value. -/
theorem IB.encl_congr {p : IB} {x y : ℝ} (hp : p.encl x) (hxy : x = y) :
    p.encl y := hxy ▸ hp

/-! ### Taylor remainder bound for `Real.sin` -/

theorem nat_fact_growth : ∀ k : ℕ, 8^k * Nat.factorial 25 ≤ Nat.factorial (2*k+25) := by
  intro k
  induction k with
  | zero => simp
  | succ n ih =>
      have h1 : 2*(n+1)+25 = (2*n+25) + 1 + 1 := by ring
      rw [h1, Nat.factorial_succ (2*n+25+1), Nat.factorial_succ (2*n+25)]
      have h3 : 8^(n+1) * Nat.factorial 25 = 8 * (8^n * Nat.factorial 25) := by ring
      rw [h3]
      calc 8 * (8^n * Nat.factorial 25) ≤ 8 * Nat.factorial (2*n+25) :=
            Nat.mul_le_mul_left 8 ih
        _ ≤ ((2*n+25+1+1) * (2*n+25+1)) * Nat.factorial (2*n+25) := by
            refine Nat.mul_le_mul_right _ ?_
            calc (8:ℕ) ≤ 27 * 26 := by norm_num
              _ ≤ (2*n+25+1+1) * (2*n+25+1) := Nat.mul_le_mul (by omega) (by omega)
        _ = (2*n+25+1+1) * ((2*n+25+1) * Nat.factorial (2*n+25)) := by ring

theorem sin_term_bound (x : ℝ) (hx : |x| ≤ 2) (k : ℕ) :
    |(-1:ℝ)^(k+12) * x^(2*(k+12)+1) / (Nat.factorial (2*(k+12)+1) : ℝ)|
      ≤ (|x|^25 / (Nat.factorial 25 : ℝ)) * (1/2)^k := by
  have hfact_pos : (0:ℝ) < (Nat.factorial (2*(k+12)+1) : ℝ) := by
    exact_mod_cast Nat.factorial_pos _
  have habs : |(-1:ℝ)^(k+12) * x^(2*(k+12)+1) / (Nat.factorial (2*(k+12)+1) : ℝ)|
      = |x|^(2*k+25) / (Nat.factorial (2*k+25) : ℝ) := by
    rw [abs_div, abs_mul, abs_pow, abs_pow, abs_neg, abs_one, one_pow, one_mul,
      Nat.abs_cast]
    rw [show 2*(k+12)+1 = 2*k+25 by ring]
  rw [habs]
  have hx2 : |x|^(2*k+25) ≤ |x|^25 * 4^k := by
    rw [show 2*k+25 = 25 + 2*k by ring, pow_add, pow_mul]
    refine mul_le_mul_of_nonneg_left ?_ (by positivity)
    refine pow_le_pow_left₀ (by positivity) ?_ k
    calc |x|^2 ≤ 2^2 := by
          exact pow_le_pow_left₀ (abs_nonneg x) hx 2
      _ = 4 := by norm_num
  have hfg : (8:ℝ)^k * (Nat.factorial 25 : ℝ) ≤ (Nat.factorial (2*k+25) : ℝ) := by
    exact_mod_cast nat_fact_growth k
  have hrhs : (|x|^25 / (Nat.factorial 25 : ℝ)) * (1/2)^k
      = |x|^25 / ((Nat.factorial 25 : ℝ) * 2^k) := by
    rw [div_pow, one_pow, div_mul_div_comm, mul_one]
  rw [hrhs]
  rw [div_le_div_iff₀ (by exact_mod_cast Nat.factorial_pos _) (by positivity)]
  have h8 : (4:ℝ)^k * 2^k = 8^k := by
    rw [← mul_pow]; norm_num
  calc |x|^(2*k+25) * ((Nat.factorial 25 : ℝ) * 2^k)
      ≤ (|x|^25 * 4^k) * ((Nat.factorial 25 : ℝ) * 2^k) := by
        refine mul_le_mul_of_nonneg_right hx2 (by positivity)
    _ = |x|^25 * ((4^k * 2^k) * (Nat.factorial 25 : ℝ)) := by ring
    _ = |x|^25 * (8^k * (Nat.factorial 25 : ℝ)) := by rw [h8]
    _ ≤ |x|^25 * (Nat.factorial (2*k+25) : ℝ) :=
        mul_le_mul_of_nonneg_left hfg (by positivity)

theorem sin_taylor_tail (x : ℝ) (hx : |x| ≤ 2) :
    |Real.sin x - ∑ k ∈ Finset.range 12, (-1:ℝ)^k * x^(2*k+1) / (Nat.factorial (2*k+1) : ℝ)|
      ≤ 2 * (|x|^25 / (Nat.factorial 25 : ℝ)) := by
  have hs := Real.hasSum_sin x
  have hsum : Summable (fun n : ℕ => (-1:ℝ)^n * x^(2*n+1) / (Nat.factorial (2*n+1) : ℝ)) :=
    hs.summable
  have htail := sum_add_tsum_nat_add (f := fun n : ℕ =>
    (-1:ℝ)^n * x^(2*n+1) / (Nat.factorial (2*n+1) : ℝ)) 12 hsum
  have htsum : tsum (fun n : ℕ => (-1:ℝ)^n * x^(2*n+1) / (Nat.factorial (2*n+1) : ℝ)) = Real.sin x :=
    hs.tsum_eq
  have hdiff : Real.sin x
      - ∑ k ∈ Finset.range 12, (-1:ℝ)^k * x^(2*k+1) / (Nat.factorial (2*k+1) : ℝ)
      = tsum (fun i : ℕ => (-1:ℝ)^(i+12) * x^(2*(i+12)+1) / (Nat.factorial (2*(i+12)+1) : ℝ)) := by
    rw [← htsum, ← htail]
    ring
  rw [hdiff]
  have hg : Summable (fun k : ℕ => (|x|^25 / (Nat.factorial 25 : ℝ)) * (1/2)^k) :=
    summable_geometric_two.mul_left _
  have hfle : ∀ k : ℕ,
      ‖(-1:ℝ)^(k+12) * x^(2*(k+12)+1) / (Nat.factorial (2*(k+12)+1) : ℝ)‖
        ≤ (|x|^25 / (Nat.factorial 25 : ℝ)) * (1/2)^k := by
    intro k
    rw [Real.norm_eq_abs]
    exact sin_term_bound x hx k
  have hnorm_sum : Summable (fun k : ℕ =>
      ‖(-1:ℝ)^(k+12) * x^(2*(k+12)+1) / (Nat.factorial (2*(k+12)+1) : ℝ)‖) :=
    Summable.of_nonneg_of_le (fun k => norm_nonneg _) hfle hg
  calc |tsum (fun i : ℕ => (-1:ℝ)^(i+12) * x^(2*(i+12)+1) / (Nat.factorial (2*(i+12)+1) : ℝ))|
      ≤ tsum (fun i : ℕ => ‖(-1:ℝ)^(i+12) * x^(2*(i+12)+1) / (Nat.factorial (2*(i+12)+1) : ℝ)‖) := by
        rw [← Real.norm_eq_abs]
        exact norm_tsum_le_tsum_norm hnorm_sum
    _ ≤ tsum (fun k : ℕ => (|x|^25 / (Nat.factorial 25 : ℝ)) * (1/2)^k) :=
        tsum_le_tsum hfle hnorm_sum hg
    _ = (|x|^25 / (Nat.factorial 25 : ℝ)) * tsum (fun k : ℕ => ((1:ℝ)/2)^k) := tsum_mul_left
    _ = 2 * (|x|^25 / (Nat.factorial 25 : ℝ)) := by rw [tsum_geometric_two]; ring

/-! ### Interval enclosures of the transcendental functions -/

theorem fpR_scl : fpR scl = 1 := by
  unfold fpR; rw [div_self (ne_of_gt sclR_pos)]

theorem fpR_sub (a b : ℤ) : fpR (a - b) = fpR a - fpR b := by
  unfold fpR; push_cast; rw [sub_div]

def upow (a : ℤ) : ℕ → ℤ
  | 0 => scl
  | k+1 => cdiv (a * upow a k) scl

theorem upow_ge {a : ℤ} {t : ℝ} (ht : 0 ≤ t) (h : t ≤ fpR a) :
    ∀ k : ℕ, t^k ≤ fpR (upow a k)
  | 0 => by
      rw [pow_zero]
      show (1:ℝ) ≤ fpR scl
      rw [fpR_scl]
  | k+1 => by
      have ih := upow_ge ht h k
      have h2 : t * t^k ≤ fpR a * fpR (upow a k) :=
        mul_le_mul h ih (pow_nonneg ht k) (le_trans ht h)
      have h3 : fpR a * fpR (upow a k) ≤ fpR (cdiv (a * upow a k) scl) := by
        rw [← prodR]; exact le_cdiv_scl _
      calc t^(k+1) = t * t^k := by rw [pow_succ]; ring
        _ ≤ _ := le_trans h2 h3

theorem rem_ge {c D a : ℤ} {x : ℝ} (hc : 0 ≤ c) (hD : 0 < D) (k : ℕ)
    (hx : |x| ≤ fpR a) :
    (c:ℝ) * |x|^k / (D:ℝ) ≤ fpR (cdiv (c * upow a k) D) := by
  have h1 : |x|^k ≤ fpR (upow a k) := upow_ge (abs_nonneg x) hx k
  have hDR : (0:ℝ) < (D:ℝ) := by exact_mod_cast hD
  have h2 : (c:ℝ) * |x|^k / (D:ℝ) ≤ (c:ℝ) * fpR (upow a k) / (D:ℝ) := by
    refine (div_le_div_iff_of_pos_right hDR).mpr ?_
    exact mul_le_mul_of_nonneg_left h1 (by exact_mod_cast hc)
  refine h2.trans ?_
  have h3 : (c:ℝ) * fpR (upow a k) / (D:ℝ) = (((c * upow a k : ℤ):ℝ)/(D:ℝ))/(scl:ℝ) := by
    unfold fpR; push_cast; ring
  rw [h3]
  show _ ≤ ((cdiv (c * upow a k) D : ℤ) : ℝ) / (scl:ℝ)
  exact (div_le_div_iff_of_pos_right sclR_pos).mpr (le_cdiv _ hD)

theorem abs_fpR (v : ℤ) : |fpR v| ≤ fpR (max v (-v)) := by
  rcases abs_cases (fpR v) with ⟨he, _⟩ | ⟨he, _⟩
  · rw [he]; exact fpR_mono (le_max_left _ _)
  · rw [he, ← fpR_neg]; exact fpR_mono (le_max_right _ _)

theorem list_range_map_sum (n : ℕ) (g : ℕ → ℝ) :
    ((List.range n).map g).sum = ∑ k ∈ Finset.range n, g k := by
  induction n with
  | zero => simp
  | succ m ih =>
      rw [List.range_succ, List.map_append, List.sum_append, Finset.sum_range_succ, ih]
      simp

def ptIB (v : ℤ) : IB := ⟨⟨v, v⟩, true⟩

theorem ptIB_encl (v : ℤ) : (ptIB v).encl (fpR v) := fun _ => ⟨le_refl _, le_refl _⟩

def sinPtSum (v : ℤ) : IB :=
  (List.range 12).foldl
    (fun acc k =>
      acc.add ((IB.ofRat ((-1)^k) ((2*k+1).factorial : ℤ)).mul ((ptIB v).pow (2*k+1))))
    (IB.ofInt 0)

theorem encl_zero_ofInt : (IB.ofInt 0).encl (0:ℝ) := by
  have h := IB.encl_ofInt 0
  rwa [show ((0:ℤ):ℝ) = 0 by norm_num] at h

theorem encl_one_ofInt : (IB.ofInt 1).encl (1:ℝ) := by
  have h := IB.encl_ofInt 1
  rwa [show ((1:ℤ):ℝ) = 1 by norm_num] at h

theorem sinPtSum_encl (v : ℤ) :
    (sinPtSum v).encl
      (∑ k ∈ Finset.range 12, (-1:ℝ)^k * (fpR v)^(2*k+1) / (Nat.factorial (2*k+1) : ℝ)) := by
  have hterm : ∀ k : ℕ,
      ((IB.ofRat ((-1)^k) ((2*k+1).factorial : ℤ)).mul ((ptIB v).pow (2*k+1))).encl
        ((-1:ℝ)^k * (fpR v)^(2*k+1) / (Nat.factorial (2*k+1) : ℝ)) := by
    intro k
    have h1 : (IB.ofRat ((-1)^k) ((2*k+1).factorial : ℤ)).encl
        ((((-1:ℤ)^k : ℤ):ℝ)/(((2*k+1).factorial : ℤ):ℝ)) :=
      IB.encl_ofRat (by exact_mod_cast Nat.factorial_pos _)
    have h2 := IB.encl_mul h1 (IB.encl_pow (ptIB_encl v) (2*k+1))
    refine IB.encl_congr h2 ?_
    push_cast
    ring
  have hfold := IB.encl_foldl_add (List.range 12)
    (fun k => (IB.ofRat ((-1)^k) ((2*k+1).factorial : ℤ)).mul ((ptIB v).pow (2*k+1)))
    (fun k => (-1:ℝ)^k * (fpR v)^(2*k+1) / (Nat.factorial (2*k+1) : ℝ))
    (fun k _ => hterm k) encl_zero_ofInt
  refine IB.encl_congr hfold ?_
  rw [foldl_add_eq_sum, list_range_map_sum]

def sinRem (v : ℤ) : ℤ := cdiv (2 * upow (max v (-v)) 25) ((25).factorial : ℤ)

theorem sinRem_ge (v : ℤ) : 2 * (|fpR v|^25 / (Nat.factorial 25 : ℝ)) ≤ fpR (sinRem v) := by
  have h := rem_ge (c := 2) (D := ((25).factorial : ℤ)) (a := max v (-v)) (x := fpR v)
    (by norm_num) (by exact_mod_cast Nat.factorial_pos 25) 25 (abs_fpR v)
  refine le_trans (le_of_eq ?_) h
  push_cast
  ring

def sinPt (v : ℤ) : IB :=
  ⟨⟨(sinPtSum v).iv.lo - sinRem v, (sinPtSum v).iv.hi + sinRem v⟩,
   (sinPtSum v).ok && decide (-(2*scl) ≤ v) && decide (v ≤ 2*scl)⟩

theorem fpR_two_scl : fpR (2*scl) = 2 := by
  unfold fpR
  push_cast
  rw [mul_div_assoc, div_self (ne_of_gt sclR_pos)]
  norm_num

theorem sinPt_encl (v : ℤ) : (sinPt v).encl (Real.sin (fpR v)) := by
  intro h
  simp only [sinPt, Bool.and_eq_true, decide_eq_true_eq] at h
  obtain ⟨⟨hok, hlo⟩, hhi⟩ := h
  have hxabs : |fpR v| ≤ 2 := by
    rw [abs_le]
    constructor
    · have h1 := fpR_mono hlo
      rwa [fpR_neg, fpR_two_scl] at h1
    · have h1 := fpR_mono hhi
      rwa [fpR_two_scl] at h1
  have hsum := sinPtSum_encl v hok
  have htay := sin_taylor_tail (fpR v) hxabs
  rw [abs_le] at htay
  have hrem := sinRem_ge v
  constructor
  · show fpR ((sinPtSum v).iv.lo - sinRem v) ≤ Real.sin (fpR v)
    rw [fpR_sub]
    linarith [hsum.1, htay.1]
  · show Real.sin (fpR v) ≤ fpR ((sinPtSum v).iv.hi + sinRem v)
    rw [fpR_add]
    linarith [hsum.2, htay.2]

def isin1 (p : IB) : IB :=
  ⟨⟨(sinPt p.iv.lo).iv.lo, (sinPt p.iv.hi).iv.hi⟩,
   p.ok && (sinPt p.iv.lo).ok && (sinPt p.iv.hi).ok &&
     decide (-(3*2^79) ≤ p.iv.lo) && decide (p.iv.hi ≤ 3*2^79)⟩

theorem fpR_three_halves : fpR (3*2^79) = 3/2 := by
  unfold fpR scl
  push_cast
  norm_num

theorem isin1_encl {p : IB} {x : ℝ} (hp : p.encl x) : (isin1 p).encl (Real.sin x) := by
  intro h
  simp only [isin1, Bool.and_eq_true, decide_eq_true_eq] at h
  obtain ⟨⟨⟨⟨hk, hlok⟩, hhik⟩, hbl⟩, hbh⟩ := h
  have hx := hp hk
  have hpi2 : (3:ℝ)/2 < Real.pi/2 := by linarith [Real.pi_gt_three]
  have hlo_ge : -(Real.pi/2) ≤ fpR p.iv.lo := by
    have h1 := fpR_mono hbl
    rw [fpR_neg, fpR_three_halves] at h1
    linarith
  have hhi_le : fpR p.iv.hi ≤ Real.pi/2 := by
    have h1 := fpR_mono hbh
    rw [fpR_three_halves] at h1
    linarith
  have hmono := Real.strictMonoOn_sin.monotoneOn
  have hmem1 : fpR p.iv.lo ∈ Set.Icc (-(Real.pi/2)) (Real.pi/2) :=
    ⟨hlo_ge, le_trans hx.1 (le_trans hx.2 hhi_le)⟩
  have hmem2 : x ∈ Set.Icc (-(Real.pi/2)) (Real.pi/2) :=
    ⟨le_trans hlo_ge hx.1, le_trans hx.2 hhi_le⟩
  have hmem3 : fpR p.iv.hi ∈ Set.Icc (-(Real.pi/2)) (Real.pi/2) :=
    ⟨le_trans hlo_ge (le_trans hx.1 hx.2), hhi_le⟩
  have hs1 : Real.sin (fpR p.iv.lo) ≤ Real.sin x := hmono hmem1 hmem2 hx.1
  have hs2 : Real.sin x ≤ Real.sin (fpR p.iv.hi) := hmono hmem2 hmem3 hx.2
  have he1 := sinPt_encl p.iv.lo hlok
  have he2 := sinPt_encl p.iv.hi hhik
  exact ⟨le_trans he1.1 hs1, le_trans hs2 he2.2⟩

def icos1 (p : IB) : IB := (IB.ofInt 1).sub ((isin1 p.halve).sq.dbl)

theorem icos1_encl {p : IB} {x : ℝ} (hp : p.encl x) : (icos1 p).encl (Real.cos x) := by
  have hid : Real.cos x = 1 - 2 * (Real.sin (x/2) * Real.sin (x/2)) := by
    have h2 := Real.cos_two_mul (x/2)
    have h3 := Real.sin_sq_add_cos_sq (x/2)
    rw [show (2:ℝ) * (x/2) = x by ring] at h2
    have hgoal : Real.cos x = 1 - 2 * Real.sin (x/2)^2 := by linarith
    rw [pow_two] at hgoal
    exact hgoal
  have henc := IB.encl_sub encl_one_ofInt
    (IB.encl_dbl (IB.encl_sq (isin1_encl (IB.encl_halve hp))))
  exact IB.encl_congr henc (by rw [hid])

def icosF (p : IB) : IB := ((icos1 p.halve).sq.dbl).sub (IB.ofInt 1)

theorem icosF_encl {p : IB} {x : ℝ} (hp : p.encl x) : (icosF p).encl (Real.cos x) := by
  have hid : Real.cos x = 2 * (Real.cos (x/2) * Real.cos (x/2)) - 1 := by
    have h2 := Real.cos_two_mul (x/2)
    rw [show (2:ℝ) * (x/2) = x by ring] at h2
    rw [h2, pow_two]
  have henc := IB.encl_sub
    (IB.encl_dbl (IB.encl_sq (icos1_encl (IB.encl_halve hp)))) encl_one_ofInt
  exact IB.encl_congr henc (by rw [hid])

def isinF (p : IB) : IB := ((isin1 p.halve).mul (icos1 p.halve)).dbl

theorem isinF_encl {p : IB} {x : ℝ} (hp : p.encl x) : (isinF p).encl (Real.sin x) := by
  have hid : Real.sin x = 2 * (Real.sin (x/2) * Real.cos (x/2)) := by
    have h2 := Real.sin_two_mul (x/2)
    rw [show (2:ℝ) * (x/2) = x by ring] at h2
    rw [h2]
    ring
  have henc := IB.encl_dbl
    (IB.encl_mul (isin1_encl (IB.encl_halve hp)) (icos1_encl (IB.encl_halve hp)))
  exact IB.encl_congr henc (by rw [hid])

/-! exp, cosh and sinh -/

def expPtSum (v : ℤ) : IB :=
  (List.range 18).foldl
    (fun acc k => acc.add ((IB.ofRat 1 (k.factorial : ℤ)).mul ((ptIB v).pow k)))
    (IB.ofInt 0)

theorem expPtSum_encl (v : ℤ) :
    (expPtSum v).encl (∑ k ∈ Finset.range 18, (fpR v)^k / (Nat.factorial k : ℝ)) := by
  have hterm : ∀ k : ℕ,
      ((IB.ofRat 1 (k.factorial : ℤ)).mul ((ptIB v).pow k)).encl
        ((fpR v)^k / (Nat.factorial k : ℝ)) := by
    intro k
    have h1 : (IB.ofRat 1 (k.factorial : ℤ)).encl (((1:ℤ):ℝ)/((k.factorial : ℤ):ℝ)) :=
      IB.encl_ofRat (by exact_mod_cast Nat.factorial_pos _)
    have h2 := IB.encl_mul h1 (IB.encl_pow (ptIB_encl v) k)
    refine IB.encl_congr h2 ?_
    push_cast
    ring
  have hfold := IB.encl_foldl_add (List.range 18)
    (fun k => (IB.ofRat 1 (k.factorial : ℤ)).mul ((ptIB v).pow k))
    (fun k => (fpR v)^k / (Nat.factorial k : ℝ))
    (fun k _ => hterm k) encl_zero_ofInt
  refine IB.encl_congr hfold ?_
  rw [foldl_add_eq_sum, list_range_map_sum]

def expRem (v : ℤ) : ℤ := cdiv (19 * upow (max v (-v)) 18) (((18).factorial : ℤ) * 18)

theorem expRem_ge (v : ℤ) :
    |fpR v|^18 * ((18:ℕ).succ / ((Nat.factorial 18 : ℝ) * 18)) ≤ fpR (expRem v) := by
  have h := rem_ge (c := 19) (D := ((18).factorial : ℤ) * 18) (a := max v (-v)) (x := fpR v)
    (by norm_num) (mul_pos (by exact_mod_cast Nat.factorial_pos 18) (by norm_num)) 18
    (abs_fpR v)
  refine le_trans (le_of_eq ?_) h
  push_cast
  ring

def expPt (v : ℤ) : IB :=
  ⟨⟨(expPtSum v).iv.lo - expRem v, (expPtSum v).iv.hi + expRem v⟩,
   (expPtSum v).ok && decide (-scl ≤ v) && decide (v ≤ scl)⟩

theorem expPt_encl (v : ℤ) : (expPt v).encl (Real.exp (fpR v)) := by
  intro h
  simp only [expPt, Bool.and_eq_true, decide_eq_true_eq] at h
  obtain ⟨⟨hok, hlo⟩, hhi⟩ := h
  have hxabs : |fpR v| ≤ 1 := by
    rw [abs_le]
    constructor
    · have h1 := fpR_mono hlo
      rwa [fpR_neg, fpR_scl] at h1
    · have h1 := fpR_mono hhi
      rwa [fpR_scl] at h1
  have hsum := expPtSum_encl v hok
  have htay := Real.exp_bound hxabs (by norm_num : 0 < 18)
  rw [abs_le] at htay
  have hrem := expRem_ge v
  constructor
  · show fpR ((expPtSum v).iv.lo - expRem v) ≤ Real.exp (fpR v)
    rw [fpR_sub]
    linarith [hsum.1, htay.1]
  · show Real.exp (fpR v) ≤ fpR ((expPtSum v).iv.hi + expRem v)
    rw [fpR_add]
    linarith [hsum.2, htay.2]

def iexp (p : IB) : IB :=
  ⟨⟨(expPt p.iv.lo).iv.lo, (expPt p.iv.hi).iv.hi⟩,
   p.ok && (expPt p.iv.lo).ok && (expPt p.iv.hi).ok⟩

theorem iexp_encl {p : IB} {x : ℝ} (hp : p.encl x) : (iexp p).encl (Real.exp x) := by
  intro h
  simp only [iexp, Bool.and_eq_true] at h
  obtain ⟨⟨hk, hlok⟩, hhik⟩ := h
  have hx := hp hk
  have he1 := expPt_encl p.iv.lo hlok
  have he2 := expPt_encl p.iv.hi hhik
  exact ⟨le_trans he1.1 (Real.exp_le_exp.mpr hx.1),
    le_trans (Real.exp_le_exp.mpr hx.2) he2.2⟩

def icosh (p : IB) : IB := ((iexp p).add (iexp p.neg)).halve

theorem icosh_encl {p : IB} {x : ℝ} (hp : p.encl x) : (icosh p).encl (Real.cosh x) := by
  have henc := IB.encl_halve (IB.encl_add (iexp_encl hp) (iexp_encl (IB.encl_neg hp)))
  exact IB.encl_congr henc (Real.cosh_eq x).symm

def isinh (p : IB) : IB := ((iexp p).sub (iexp p.neg)).halve

theorem isinh_encl {p : IB} {x : ℝ} (hp : p.encl x) : (isinh p).encl (Real.sinh x) := by
  have henc := IB.encl_halve (IB.encl_sub (iexp_encl hp) (iexp_encl (IB.encl_neg hp)))
  exact IB.encl_congr henc (Real.sinh_eq x).symm

/-! ### Claim C9: the concrete scenario `solve([1.0708], 0.5, 10)`

The spec asserts the result is within `1e-6` of `π/2`.  In fact the true
root of `E - 0.5 sin E = 1.0708` is `π/2 + 3.67e-6` (the spec rounded
`ℓ = π/2 - 0.5` to `1.0708`, which moves the root by `3.67e-6` while the
solver is far more accurate than that), so the claim fails.  Below the
solver's output is enclosed rigorously with the interval arithmetic. -/

def piLoZ : ℤ := 3797952473636338580784797

def piHiZ : ℤ := 3797952473636338580796888

def ipi : IB := ⟨⟨piLoZ, piHiZ⟩, true⟩

theorem ipi_encl : ipi.encl Real.pi := by
  intro _
  constructor
  · show fpR piLoZ ≤ Real.pi
    refine le_trans ?_ (le_of_lt Real.pi_gt_d20)
    unfold fpR piLoZ scl
    norm_num
  · show Real.pi ≤ fpR piHiZ
    refine le_trans (le_of_lt Real.pi_lt_d20) ?_
    unfold fpR piHiZ scl
    norm_num

def ellI : IB := IB.ofRat 10708 10000

def centerI : IB := IB.ofRat 13208 10000

def quarterI : IB := IB.ofRat 1 4

def halfI : IB := IB.ofRat 1 2

def negHalfI : IB := IB.ofRat (-1) 2

theorem ellI_encl : ellI.encl ((10708:ℝ)/10000) :=
  IB.encl_congr (IB.encl_ofRat (by norm_num)) (by norm_num)

theorem c9_ell_lt_pi : (10708:ℝ)/10000 < Real.pi := by
  nlinarith [Real.pi_gt_three]

theorem c9_center_eval : contourCenter (1/2) (10708/10000) = 13208/10000 := by
  unfold contourCenter
  rw [if_pos c9_ell_lt_pi]
  norm_num

theorem centerI_encl : centerI.encl (contourCenter (1/2) (10708/10000)) :=
  IB.encl_congr (IB.encl_ofRat (by norm_num)) (by rw [c9_center_eval]; norm_num)

theorem quarterI_encl : quarterI.encl ((1:ℝ)/2/2) :=
  IB.encl_congr (IB.encl_ofRat (by norm_num)) (by norm_num)

theorem halfI_encl : halfI.encl ((1:ℝ)/2) :=
  IB.encl_congr (IB.encl_ofRat (by norm_num)) (by norm_num)

theorem halfI_encl_point : halfI.encl (0.5:ℝ) :=
  IB.encl_congr (IB.encl_ofRat (by norm_num)) (by norm_num)

theorem negHalfI_encl : negHalfI.encl (-0.5:ℝ) :=
  IB.encl_congr (IB.encl_ofRat (by norm_num)) (by norm_num)

def sinCI : IB := isin1 centerI

def cosCI : IB := icos1 centerI

theorem sinCI_encl : sinCI.encl (sinC (1/2) (10708/10000)) :=
  isin1_encl centerI_encl

theorem cosCI_encl : cosCI.encl (cosC (1/2) (10708/10000)) :=
  icos1_encl centerI_encl

def ecosRadI : IB := halfI.mul (icos1 quarterI)

def esinRadI : IB := halfI.mul (isin1 quarterI)

theorem ecosRadI_encl : ecosRadI.encl ((1:ℝ)/2 * Real.cos (1/2/2)) :=
  IB.encl_mul halfI_encl (icos1_encl quarterI_encl)

theorem esinRadI_encl : esinRadI.encl ((1:ℝ)/2 * Real.sin (1/2/2)) :=
  IB.encl_mul halfI_encl (isin1_encl quarterI_encl)

def c9fxR0I : IB :=
  ((centerI.add quarterI).sub
    ((sinCI.mul ecosRadI).add (cosCI.mul esinRadI))).sub ellI

def c9fxRLI : IB :=
  ((centerI.sub quarterI).sub
    ((sinCI.mul ecosRadI).sub (cosCI.mul esinRadI))).sub ellI

theorem c9fxR0I_encl : c9fxR0I.encl (keplerFxR0 (1/2) (10708/10000)) := by
  have h := IB.encl_sub
    (IB.encl_sub (IB.encl_add centerI_encl quarterI_encl)
      (IB.encl_add (IB.encl_mul sinCI_encl ecosRadI_encl)
        (IB.encl_mul cosCI_encl esinRadI_encl)))
    ellI_encl
  exact IB.encl_congr h (by unfold keplerFxR0; rfl)

theorem c9fxRLI_encl : c9fxRLI.encl (keplerFxRL (1/2) (10708/10000)) := by
  have h := IB.encl_sub
    (IB.encl_sub (IB.encl_sub centerI_encl quarterI_encl)
      (IB.encl_sub (IB.encl_mul sinCI_encl ecosRadI_encl)
        (IB.encl_mul cosCI_encl esinRadI_encl)))
    ellI_encl
  exact IB.encl_congr h (by unfold keplerFxRL; rfl)

def c9freq (j : ℕ) : IB :=
  (((IB.ofInt 2).mul ipi).mul (IB.ofInt ((j:ℤ)+1))).div (IB.ofInt 18)

theorem c9freq_encl (j : ℕ) :
    (c9freq j).encl (2 * Real.pi * ((j:ℝ) + 1) / NfftR 10) := by
  have h2 : (IB.ofInt 2).encl (2:ℝ) := IB.encl_congr (IB.encl_ofInt 2) (by norm_num)
  have hj : (IB.ofInt ((j:ℤ)+1)).encl ((j:ℝ) + 1) :=
    IB.encl_congr (IB.encl_ofInt ((j:ℤ)+1)) (by push_cast; ring)
  have h18 : (IB.ofInt 18).encl (NfftR 10) :=
    IB.encl_congr (IB.encl_ofInt 18) (by norm_num [NfftR])
  exact IB.encl_div (IB.encl_mul (IB.encl_mul h2 ipi_encl) hj) h18

def c9term (j : ℕ) : IB × IB :=
  let freq := c9freq j
  let exp2R := icos1 freq
  let exp2I := isinF freq
  let ecosR := halfI.mul (icos1 (quarterI.mul exp2R))
  let esinR := halfI.mul (isin1 (quarterI.mul exp2R))
  let exp4R := (exp2R.mul exp2R).sub (exp2I.mul exp2I)
  let exp4I := ((IB.ofInt 2).mul exp2R).mul exp2I
  let coshI := icosh (quarterI.mul exp2I)
  let sinhI := isinh (quarterI.mul exp2I)
  let zR := centerI.add (quarterI.mul exp2R)
  let zI := quarterI.mul exp2I
  let tmpsin := (sinCI.mul ecosR).add (cosCI.mul esinR)
  let tmpcos := (cosCI.mul ecosR).sub (sinCI.mul esinR)
  let fxR := (zR.sub (tmpsin.mul coshI)).sub ellI
  let fxI := zI.sub (tmpcos.mul sinhI)
  let ftmp := (fxR.mul fxR).add (fxI.mul fxI)
  let fxR2 := fxR.div ftmp
  let fxI2 := fxI.div ftmp
  ((exp4R.mul fxR2).add (exp4I.mul fxI2), (exp2R.mul fxR2).add (exp2I.mul fxI2))

theorem c9term_encl (j : ℕ) :
    (c9term j).1.encl ((keplerT (1/2) 10 (10708/10000) j).1)
    ∧ (c9term j).2.encl ((keplerT (1/2) 10 (10708/10000) j).2) := by
  have h2c : (IB.ofInt 2).encl (2:ℝ) := IB.encl_congr (IB.encl_ofInt 2) (by norm_num)
  have hf := c9freq_encl j
  have h2R := icos1_encl hf
  have h2I := isinF_encl hf
  have hecosR := IB.encl_mul halfI_encl (icos1_encl (IB.encl_mul quarterI_encl h2R))
  have hesinR := IB.encl_mul halfI_encl (isin1_encl (IB.encl_mul quarterI_encl h2R))
  have hexp4R := IB.encl_sub (IB.encl_mul h2R h2R) (IB.encl_mul h2I h2I)
  have hexp4I := IB.encl_mul (IB.encl_mul h2c h2R) h2I
  have hcoshI := icosh_encl (IB.encl_mul quarterI_encl h2I)
  have hsinhI := isinh_encl (IB.encl_mul quarterI_encl h2I)
  have hzR := IB.encl_add centerI_encl (IB.encl_mul quarterI_encl h2R)
  have hzI := IB.encl_mul quarterI_encl h2I
  have htmpsin := IB.encl_add (IB.encl_mul sinCI_encl hecosR) (IB.encl_mul cosCI_encl hesinR)
  have htmpcos := IB.encl_sub (IB.encl_mul cosCI_encl hecosR) (IB.encl_mul sinCI_encl hesinR)
  have hfxR := IB.encl_sub (IB.encl_sub hzR (IB.encl_mul htmpsin hcoshI)) ellI_encl
  have hfxI := IB.encl_sub hzI (IB.encl_mul htmpcos hsinhI)
  have hftmp := IB.encl_add (IB.encl_mul hfxR hfxR) (IB.encl_mul hfxI hfxI)
  have hfxR2 := IB.encl_div hfxR hftmp
  have hfxI2 := IB.encl_div hfxI hftmp
  simp only [c9term]
  constructor
  · exact IB.encl_congr
      (IB.encl_add (IB.encl_mul hexp4R hfxR2) (IB.encl_mul hexp4I hfxI2))
      (by simp only [keplerT])
  · exact IB.encl_congr
      (IB.encl_add (IB.encl_mul h2R hfxR2) (IB.encl_mul h2I hfxI2))
      (by simp only [keplerT])

def c9S1 : IB := (List.range 8).foldl (fun acc j => acc.add (c9term j).2) (IB.ofInt 0)

def c9D0 : IB :=
  (List.range 8).foldl (fun acc j => acc.add ((c9term j).1.sub (c9term j).2)) (IB.ofInt 0)

def c9gx1 : IB := ((halfI.div c9fxR0I).add c9S1).add (negHalfI.div c9fxRLI)

def c9D : IB := c9D0.add c9fxRLI.inv

def c9diffI : IB :=
  ((centerI.add quarterI).sub ipi.halve).add ((quarterI.mul c9D).div c9gx1)

theorem c9S1_encl : c9S1.encl
    ((List.range 8).foldl (fun a j => a + (keplerT (1/2) 10 (10708/10000) j).2) 0) :=
  IB.encl_foldl_add (List.range 8) (fun j => (c9term j).2)
    (fun j => (keplerT (1/2) 10 (10708/10000) j).2)
    (fun j _ => (c9term_encl j).2) encl_zero_ofInt

theorem c9gx1_encl : c9gx1.encl (keplerGx1 (1/2) 10 (10708/10000)) := by
  have hA : (halfI.div c9fxR0I).encl ((0.5:ℝ) / keplerFxR0 (1/2) (10708/10000)) :=
    IB.encl_div halfI_encl_point c9fxR0I_encl
  have hC : (negHalfI.div c9fxRLI).encl ((-0.5:ℝ) / keplerFxRL (1/2) (10708/10000)) :=
    IB.encl_div negHalfI_encl c9fxRLI_encl
  have h := IB.encl_add (IB.encl_add hA c9S1_encl) hC
  refine IB.encl_congr h ?_
  unfold keplerGx1
  rw [show ((10:ℤ) - 2).toNat = 8 from rfl]

/-- The two accumulators differ by the interior differences plus `1/fxL`
(the huge shared right-edge term cancels — this is what makes a tight
enclosure of the final ratio possible). -/
theorem list_sum_sub (js : List ℕ) (f g : ℕ → ℝ) :
    (js.map f).sum - (js.map g).sum = (js.map (fun j => f j - g j)).sum := by
  induction js with
  | nil => simp
  | cons j t ih =>
      simp only [List.map_cons, List.sum_cons]
      rw [← ih]
      ring

theorem gx_diff (e : ℝ) (n : ℤ) (x : ℝ) :
    keplerGx2 e n x - keplerGx1 e n x
      = ((List.range (n-2).toNat).map
          (fun j => (keplerT e n x j).1 - (keplerT e n x j).2)).sum
        + 1 / keplerFxRL e x := by
  unfold keplerGx2 keplerGx1
  rw [foldl_add_eq_sum, foldl_add_eq_sum, ← list_sum_sub]
  ring

theorem c9D_encl : c9D.encl
    (keplerGx2 (1/2) 10 (10708/10000) - keplerGx1 (1/2) 10 (10708/10000)) := by
  have hD0 : c9D0.encl ((List.range 8).foldl
      (fun a j => a + ((keplerT (1/2) 10 (10708/10000) j).1
        - (keplerT (1/2) 10 (10708/10000) j).2)) 0) :=
    IB.encl_foldl_add (List.range 8) (fun j => (c9term j).1.sub (c9term j).2)
      (fun j => (keplerT (1/2) 10 (10708/10000) j).1
        - (keplerT (1/2) 10 (10708/10000) j).2)
      (fun j _ => IB.encl_sub (c9term_encl j).1 (c9term_encl j).2) encl_zero_ofInt
  have hInv : (c9fxRLI.inv).encl (keplerFxRL (1/2) (10708/10000))⁻¹ :=
    IB.encl_inv c9fxRLI_encl
  have h := IB.encl_add hD0 hInv
  refine IB.encl_congr h ?_
  rw [gx_diff, show ((10:ℤ) - 2).toNat = 8 from rfl, foldl_add_eq_sum,
    one_div (keplerFxRL (1/2) (10708/10000))]

theorem keplerElem_decomp (e : ℝ) (n : ℤ) (x : ℝ) (h : keplerGx1 e n x ≠ 0) :
    keplerElem e n x - Real.pi/2
      = (contourCenter e x + e/2 - Real.pi/2)
        + (e/2 * (keplerGx2 e n x - keplerGx1 e n x)) / keplerGx1 e n x := by
  unfold keplerElem
  field_simp
  ring

theorem c9diffI_encl (hg : keplerGx1 (1/2) 10 (10708/10000) ≠ 0) :
    c9diffI.encl (keplerElem (1/2) 10 (10708/10000) - Real.pi/2) := by
  have hpart1 := IB.encl_sub (IB.encl_add centerI_encl quarterI_encl)
    (IB.encl_halve ipi_encl)
  have hpart2 := IB.encl_div (IB.encl_mul quarterI_encl c9D_encl) c9gx1_encl
  have h := IB.encl_add hpart1 hpart2
  refine IB.encl_congr h ?_
  rw [keplerElem_decomp (1/2) 10 (10708/10000) hg]

theorem c9_pos_denom : 0 < keplerGx1 (1/2) 10 (10708/10000) := by
  have hok : c9gx1.ok = true := by decide
  have hlo : 0 < c9gx1.iv.lo := by decide
  have h := (c9gx1_encl hok).1
  have hR : (0:ℝ) < fpR c9gx1.iv.lo := div_pos (by exact_mod_cast hlo) sclR_pos
  linarith

theorem c9_bound :
    1/1000000 < keplerElem (1/2) 10 (10708/10000) - Real.pi/2
    ∧ keplerElem (1/2) 10 (10708/10000) - Real.pi/2 ≤ 1/100000 := by
  have hg := ne_of_gt c9_pos_denom
  have hencl := c9diffI_encl hg
  have hok : c9diffI.ok = true := by decide
  have hc := hencl hok
  constructor
  · have hz : scl < c9diffI.iv.lo * 1000000 := by decide
    have hzR : (scl:ℝ) < (c9diffI.iv.lo : ℝ) * 1000000 := by exact_mod_cast hz
    have hlo : (1:ℝ)/1000000 < fpR c9diffI.iv.lo := by
      unfold fpR
      rw [div_lt_div_iff₀ (by norm_num) sclR_pos]
      linarith
    linarith [hc.1]
  · have hz2 : c9diffI.iv.hi * 100000 ≤ scl := by decide
    have hzR : (c9diffI.iv.hi : ℝ) * 100000 ≤ (scl:ℝ) := by exact_mod_cast hz2
    have hhi : fpR c9diffI.iv.hi ≤ 1/100000 := by
      unfold fpR
      rw [div_le_div_iff₀ sclR_pos (by norm_num)]
      linarith
    linarith [hc.2]

theorem c9_call_eval :
    compute_contour [1.0708] 0.5 10 = Except.ok [keplerElem 0.5 10 1.0708] := by
  have hmax : ¬ 2 * Real.pi < listMax [(1.0708:ℝ)] := by
    show ¬ 2 * Real.pi < (1.0708:ℝ)
    push_neg
    nlinarith [Real.pi_gt_three]
  have hmin : ¬ listMin [(1.0708:ℝ)] < 0 := by
    show ¬ (1.0708:ℝ) < 0
    norm_num
  rw [compute_contour_eq_map [1.0708] 0.5 10 (by norm_num) (by norm_num) hmax hmin
    (by norm_num)]
  rfl

theorem c9_lit : keplerElem 0.5 10 1.0708 = keplerElem (1/2) 10 (10708/10000) := by
  have h1 : (0.5:ℝ) = 1/2 := by norm_num
  have h2 : (1.0708:ℝ) = 10708/10000 := by norm_num
  rw [h1, h2]

/-- **C9 counterexample**: `solve([1.0708], 0.5, 10)` returns a single value
that is NOT within `1e-6` of `π/2` (it is `≈ 3.67e-6` above `π/2`, because
the spec's input `1.0708` is itself `3.67e-6` away from `π/2 − 0.5·sin(π/2)`
while the solver is far more accurate than that). -/
theorem C9_counterexample :
    ∃ E : ℝ, compute_contour [1.0708] 0.5 10 = Except.ok [E]
      ∧ ¬ |E - Real.pi/2| ≤ 1/1000000 := by
  refine ⟨keplerElem 0.5 10 1.0708, c9_call_eval, ?_⟩
  rw [c9_lit]
  intro habs
  rw [abs_le] at habs
  linarith [c9_bound.1]

/-- **C9 (amended)**: `solve([1.0708], 0.5, 10)` returns a single value
within `1e-5` of `π/2`. -/
theorem C9_amended_accuracy :
    ∃ E : ℝ, compute_contour [1.0708] 0.5 10 = Except.ok [E]
      ∧ |E - Real.pi/2| ≤ 1/100000 := by
  refine ⟨keplerElem 0.5 10 1.0708, c9_call_eval, ?_⟩
  rw [c9_lit, abs_le]
  constructor
  · linarith [c9_bound.1]
  · exact c9_bound.2

/-- Witness for C10 at `l = [1]`, `e = 1/2`. -/
theorem C10_minimal_iterations_witness :
    compute_contour [1] (1/2) 2 =
      Except.ok ([1].map (fun x => contourCenter (1/2) x
        + (1/2) / 2 * (0.5 / keplerFxR0 (1/2) x + 0.5 / keplerFxRL (1/2) x)
          / (0.5 / keplerFxR0 (1/2) x + -0.5 / keplerFxRL (1/2) x)))
    ∧ ((2:ℤ) - 2).toNat = 0 :=
  C10_minimal_iterations [1] (1/2) (by norm_num) (by norm_num)
    (by show (1:ℝ) ≤ 2 * Real.pi; nlinarith [Real.pi_gt_three])
    (by show (0:ℝ) ≤ 1; norm_num)

end KeplerGoat
